import Mathlib

/-!
Shallow embedding of the `daily_stock_analysis` repository.

Embedded from the source under `src/`:
* `src/config.py` — the `Config` dataclass, its singleton protocol
  (`get_instance` / `reset_instance`), `_load_from_env` and
  `refresh_stock_list`;
* `src/feishu_bitable.py` — the `FeishuBitableReader` (credential check,
  tenant-access-token cache, record listing with pagination, stock-code
  extraction);
* `src/feishu_url_helper.py` — `parse_feishu_bitable_url`, including a
  faithful model of the two `re.search` patterns it uses.

The data-source strategy layer itself (`DataFetcherManager`, `RateLimiter`,
`RetryPolicy`) lives in `src/data_provider/base.py` and sibling modules,
which are not shipped under `src/` (only the package `__init__` is); those
definitions are modelled from the specification and marked as such.

Conventions: Python strings are Lean `String`s; Python floats appearing in
the configuration and in timestamps are modelled as `ℚ`; machine time is an
explicit `now : ℚ` parameter; HTTP traffic is an explicit oracle plus a
request trace, and a caught/raised exception is an explicit constructor.
-/

namespace DSA

/-- The process environment after `load_dotenv` merged the `.env` file into
it: `getenv` of a variable name, `none` when unset. -/
abbrev Env := String → Option String

/-- `os.getenv(k, d)`. -/
def getenvD (env : Env) (k d : String) : String := (env k).getD d

/-- `pat` is a leading piece of `cs` (`str.startswith`). -/
def leadsWith : List Char → List Char → Bool
  | [], _ => true
  | _ :: _, [] => false
  | a :: as, b :: bs => a == b && leadsWith as bs

/-- Python `str.strip()` on the character list: whitespace removed from both
ends.  (Python also strips `\f`, `\v` and Unicode spaces; the configuration
values in play only carry ASCII blanks.) -/
def pyStrip (l : List Char) : List Char :=
  ((l.dropWhile Char.isWhitespace).reverse.dropWhile Char.isWhitespace).reverse

/-- `str.strip()` as a `String → String` map. -/
def pyStripS (s : String) : String := ⟨pyStrip s.data⟩

/-- Python `s.split(sep)` for a one-character separator (the only shape the
source uses: `','`, `'.'`, `'/'`, `'?'`). -/
def pySplitChar (sep : Char) : List Char → List (List Char)
  | [] => [[]]
  | x :: xs =>
    match pySplitChar sep xs with
    | [] => [[]]
    | h :: t => if x == sep then [] :: h :: t else (x :: h) :: t

/-- Python `s.replace(ab, '')` for a two-character pattern (the source's
`replace('sz', '')`/`replace('sh', '')`): remove the non-overlapping
occurrences left to right. -/
def removePair (a b : Char) : List Char → List Char
  | [] => []
  | [x] => [x]
  | x :: y :: rest =>
    if x == a && y == b then removePair a b rest
    else x :: removePair a b (y :: rest)

/-- Python `str.lower()` restricted to ASCII letters, which is all the
configuration code applies it to (`'false'`, `'true'` flags). -/
def pyLower (s : String) : String := ⟨s.data.map Char.toLower⟩

/-- Value of a string of decimal digits. -/
def digitsVal (l : List Char) : ℕ := l.foldl (fun n c => 10 * n + (c.toNat - 48)) 0

/-- All characters are ASCII decimal digits — the digit runs the `float()`
and `int()` literal grammar accepts in the configuration values modelled
here (this is not a model of `str.isdigit`, which is wider; see
`validCode`). -/
def asciiDigits (l : List Char) : Bool := l.all Char.isDigit

/-- Python `float()` on the plain decimal literals this configuration uses
(optional sign, digits, optional fractional part); exponent, `inf`/`nan` and
underscore forms are not modelled.  The value `± (i + f/10^|f|)` is built as
one exact fraction.  `none` models the `ValueError` raised on malformed
input. -/
def pyFloat? (s : String) : Option ℚ :=
  let t := pyStrip s.data
  let p : ℤ × List Char :=
    if leadsWith ['-'] t then ((-1 : ℤ), t.drop 1)
    else if leadsWith ['+'] t then ((1 : ℤ), t.drop 1)
    else ((1 : ℤ), t)
  match pySplitChar '.' p.2 with
  | [i] =>
    if i.length ≠ 0 ∧ asciiDigits i then some (mkRat (p.1 * digitsVal i) 1) else none
  | [i, f] =>
    if i.length + f.length ≠ 0 ∧ asciiDigits i ∧ asciiDigits f then
      some (mkRat (p.1 * (digitsVal i * 10 ^ f.length + digitsVal f)) (10 ^ f.length))
    else none
  | _ => none

/-- Python `int()` on plain decimal literals (optional sign, digits);
`none` models the `ValueError` raised on malformed input. -/
def pyInt? (s : String) : Option ℤ :=
  let t := pyStrip s.data
  let p : ℤ × List Char :=
    if leadsWith ['-'] t then ((-1 : ℤ), t.drop 1)
    else if leadsWith ['+'] t then ((1 : ℤ), t.drop 1)
    else ((1 : ℤ), t)
  if (p.2).length ≠ 0 ∧ asciiDigits p.2 then some (p.1 * digitsVal p.2)
  else none

/-- `os.getenv(k, 'false').lower() == 'true'` style flag parsing. -/
def pyBool (s : String) : Bool := pyLower s == "true"

/-- `[x.strip() for x in s.split(',') if x.strip()]` — the comma-separated
list parsing used for `STOCK_LIST`, search API keys, e-mail receivers and
custom webhooks. -/
def parseCommaList (s : String) : List String :=
  (((pySplitChar ',' s.data).map (fun l => pyStripS ⟨l⟩))).filter
    (fun x => !x.isEmpty)

/-- The `Config` dataclass of `src/config.py`, field for field, with the
code defaults.  Python `float` fields are `ℚ`, `int` fields are `ℤ`.  The
`_instance` class attribute is not a field of the dataclass; it is the
explicit singleton state threaded through `get_instance`/`reset_instance`
below. -/
structure Config where
  stock_list : List String := []
  feishu_app_id : Option String := none
  feishu_app_secret : Option String := none
  feishu_folder_token : Option String := none
  tushare_token : Option String := none
  ai_provider : String := "auto"
  gemini_api_key : Option String := none
  gemini_model : String := "gemini-3-flash-preview"
  gemini_model_fallback : String := "gemini-2.5-flash"
  gemini_request_delay : ℚ := 2
  gemini_max_retries : ℤ := 5
  gemini_retry_delay : ℚ := 5
  gemini_request_timeout : ℤ := 60
  openai_preferred : Bool := false
  openai_api_key : Option String := none
  openai_base_url : Option String := none
  openai_model : String := "gpt-4o-mini"
  openrouter_api_key : Option String := none
  openrouter_base_url : String := "https://openrouter.ai/api/v1"
  openrouter_model : String := "anthropic/claude-3.5-sonnet"
  deepseek_api_key : Option String := none
  deepseek_base_url : String := "https://api.deepseek.com/v1"
  deepseek_model : String := "deepseek-chat"
  dashscope_api_key : Option String := none
  dashscope_base_url : String := "https://dashscope.aliyuncs.com/compatible-mode/v1"
  dashscope_model : String := "qwen-plus"
  google_search_api_key : Option String := none
  google_search_engine_id : Option String := none
  tavily_api_keys : List String := []
  serpapi_keys : List String := []
  wechat_webhook_url : Option String := none
  feishu_webhook_url : Option String := none
  telegram_bot_token : Option String := none
  telegram_chat_id : Option String := none
  email_sender : Option String := none
  email_password : Option String := none
  email_receivers : List String := []
  custom_webhook_urls : List String := []
  feishu_max_bytes : ℤ := 20000
  wechat_max_bytes : ℤ := 4000
  database_path : String := "./data/stock_analysis.db"
  log_dir : String := "./logs"
  log_level : String := "INFO"
  max_workers : ℤ := 3
  debug : Bool := false
  schedule_enabled : Bool := false
  schedule_time : String := "18:00"
  market_review_enabled : Bool := true
  akshare_sleep_min : ℚ := 2
  akshare_sleep_max : ℚ := 5
  tushare_rate_limit_per_minute : ℤ := 80
  max_retries : ℤ := 3
  retry_base_delay : ℚ := 1
  retry_max_delay : ℚ := 30
deriving DecidableEq

/-- `Config._load_from_env`: construct a `Config` from the (already
`.env`-merged) environment.  `none` models a `ValueError` escaping from one
of the `int(...)`/`float(...)` conversions.  The fields `akshare_sleep_*`,
`tushare_rate_limit_per_minute`, `max_retries`, `retry_base_delay` and
`retry_max_delay` are not passed in the source's constructor call and keep
their dataclass defaults. -/
def load_from_env (env : Env) : Option Config := do
  let sl := parseCommaList (getenvD env "STOCK_LIST" "")
  let stock_list := if sl.isEmpty then ["600519", "000001", "300750"] else sl
  let tavily_api_keys := parseCommaList (getenvD env "TAVILY_API_KEYS" "")
  let serpapi_keys := parseCommaList (getenvD env "SERPAPI_API_KEYS" "")
  let gemini_request_delay ← pyFloat? (getenvD env "GEMINI_REQUEST_DELAY" "2.0")
  let gemini_max_retries ← pyInt? (getenvD env "GEMINI_MAX_RETRIES" "5")
  let gemini_retry_delay ← pyFloat? (getenvD env "GEMINI_RETRY_DELAY" "5.0")
  let gemini_request_timeout ← pyInt? (getenvD env "GEMINI_REQUEST_TIMEOUT" "60")
  let feishu_max_bytes ← pyInt? (getenvD env "FEISHU_MAX_BYTES" "20000")
  let wechat_max_bytes ← pyInt? (getenvD env "WECHAT_MAX_BYTES" "4000")
  let max_workers ← pyInt? (getenvD env "MAX_WORKERS" "3")
  pure {
    stock_list := stock_list
    feishu_app_id := env "FEISHU_APP_ID"
    feishu_app_secret := env "FEISHU_APP_SECRET"
    feishu_folder_token := env "FEISHU_FOLDER_TOKEN"
    tushare_token := env "TUSHARE_TOKEN"
    ai_provider := getenvD env "AI_PROVIDER" "auto"
    gemini_api_key := env "GEMINI_API_KEY"
    gemini_model := getenvD env "GEMINI_MODEL" "gemini-3-flash-preview"
    gemini_model_fallback := getenvD env "GEMINI_MODEL_FALLBACK" "gemini-2.5-flash"
    gemini_request_delay := gemini_request_delay
    gemini_max_retries := gemini_max_retries
    gemini_retry_delay := gemini_retry_delay
    gemini_request_timeout := gemini_request_timeout
    openai_preferred := pyBool (getenvD env "OPENAI_PREFERRED" "false")
    openai_api_key := env "OPENAI_API_KEY"
    openai_base_url := env "OPENAI_BASE_URL"
    openai_model := getenvD env "OPENAI_MODEL" "gpt-4o-mini"
    openrouter_api_key := env "OPENROUTER_API_KEY"
    openrouter_base_url := getenvD env "OPENROUTER_BASE_URL" "https://openrouter.ai/api/v1"
    openrouter_model := getenvD env "OPENROUTER_MODEL" "anthropic/claude-3.5-sonnet"
    deepseek_api_key := env "DEEPSEEK_API_KEY"
    deepseek_base_url := getenvD env "DEEPSEEK_BASE_URL" "https://api.deepseek.com/v1"
    deepseek_model := getenvD env "DEEPSEEK_MODEL" "deepseek-chat"
    dashscope_api_key := env "DASHSCOPE_API_KEY"
    dashscope_base_url :=
      getenvD env "DASHSCOPE_BASE_URL" "https://dashscope.aliyuncs.com/compatible-mode/v1"
    dashscope_model := getenvD env "DASHSCOPE_MODEL" "qwen-plus"
    google_search_api_key := env "GOOGLE_SEARCH_API_KEY"
    google_search_engine_id := env "GOOGLE_SEARCH_ENGINE_ID"
    tavily_api_keys := tavily_api_keys
    serpapi_keys := serpapi_keys
    wechat_webhook_url := env "WECHAT_WEBHOOK_URL"
    feishu_webhook_url := env "FEISHU_WEBHOOK_URL"
    telegram_bot_token := env "TELEGRAM_BOT_TOKEN"
    telegram_chat_id := env "TELEGRAM_CHAT_ID"
    email_sender := env "EMAIL_SENDER"
    email_password := env "EMAIL_PASSWORD"
    email_receivers := parseCommaList (getenvD env "EMAIL_RECEIVERS" "")
    custom_webhook_urls := parseCommaList (getenvD env "CUSTOM_WEBHOOK_URLS" "")
    feishu_max_bytes := feishu_max_bytes
    wechat_max_bytes := wechat_max_bytes
    database_path := getenvD env "DATABASE_PATH" "./data/stock_analysis.db"
    log_dir := getenvD env "LOG_DIR" "./logs"
    log_level := getenvD env "LOG_LEVEL" "INFO"
    max_workers := max_workers
    debug := pyBool (getenvD env "DEBUG" "false")
    schedule_enabled := pyBool (getenvD env "SCHEDULE_ENABLED" "false")
    schedule_time := getenvD env "SCHEDULE_TIME" "18:00"
    market_review_enabled := pyBool (getenvD env "MARKET_REVIEW_ENABLED" "true") }

/-- `Config.get_instance`: the class attribute `_instance` is the explicit
state `inst`.  Returns the served config together with the new `_instance`;
`none` models the `ValueError` escaping when the first construction fails
(in which case `_instance` stays unset). -/
def get_instance (env : Env) (inst : Option Config) : Option (Config × Option Config) :=
  match inst with
  | some c => some (c, some c)
  | none => (load_from_env env).map (fun c => (c, some c))

/-- `Config.reset_instance`: clears the singleton. -/
def reset_instance (_ : Option Config) : Option Config := none

/-- `Config.refresh_stock_list`.  `fileVal` is `dotenv_values(env_path).get('STOCK_LIST')`
when the `.env` file exists (`none` when the file or the key is absent or the
value is `None`), `osVal` is `os.getenv('STOCK_LIST')`. -/
def refresh_stock_list (fileVal osVal : Option String) (c : Config) : Config :=
  let s1 := pyStripS (fileVal.getD "")
  let s := if s1.isEmpty then osVal.getD "" else s1
  let l := parseCommaList s
  { c with stock_list := if l.isEmpty then ["000001"] else l }

/-! ### The data-source strategy layer (modelled from the spec) -/

/-- Modelled from the spec: the `Capability` tag of §3 — the kind of data a
request asks for.  The concrete enum lives in `src/data_provider/base.py`,
which is not under `src/`. -/
inductive Capability
  | basicInfo
  | dailyBars
  | realtimeQuote
deriving DecidableEq

/-- Modelled from the spec: a registered `ProviderClient` as the Manager
sees it for one fixed `FetchRequest` — its `ProviderIdentity` {name,
priority rank, supported capabilities} plus the terminal outcome
(`Except`: success payload or terminal-failure reason) that
`RateLimiter.acquire` + `RetryPolicy.execute(provider, fetch)` produce for
that request.  The concrete classes live in `src/data_provider/`, whose
implementation modules are not under `src/`. -/
structure ProviderM (α : Type) where
  name : String
  priority : ℕ
  caps : List Capability
  fetch : Except String α

/-- A provider `supports(capability)`. -/
def supports {α : Type} (p : ProviderM α) (c : Capability) : Bool :=
  p.caps.contains c

/-- Modelled from the spec: the Manager's result — first success, the
"no provider available" configuration error, or the aggregated exhaustion
report listing `(provider name, terminal failure reason)` pairs in the
order attempted. -/
inductive FetchOutcome (α : Type)
  | success (provider : String) (payload : α)
  | noProvider
  | exhausted (failures : List (String × String))
deriving DecidableEq

/-- Modelled from the spec: stable insertion of a provider in front of the
first already-placed provider of equal or larger priority rank; the earlier
argument is the earlier-registered one, so ties keep registration order. -/
def insertProv {α : Type} (p : ProviderM α) : List (ProviderM α) → List (ProviderM α)
  | [] => [p]
  | q :: qs => if p.priority ≤ q.priority then p :: q :: qs else q :: insertProv p qs

/-- Modelled from the spec: stable sort of the registered providers by
ascending priority rank, ties broken by registration order. -/
def sortProviders {α : Type} : List (ProviderM α) → List (ProviderM α)
  | [] => []
  | p :: ps => insertProv p (sortProviders ps)

/-- Modelled from the spec, §4.4 step 1: resolve the ordered provider list
registered for the request's capability (priority order, ties by
registration order). -/
def resolveOrder {α : Type} (registered : List (ProviderM α)) (c : Capability) :
    List (ProviderM α) :=
  sortProviders (registered.filter (fun p => supports p c))

/-- Modelled from the spec, §4.4 step 2: try each provider in order; return
the first success immediately, otherwise record the terminal failure and
continue; when all are exhausted, fail with the aggregated list. -/
def tryProviders {α : Type} : List (ProviderM α) → List (String × String) → FetchOutcome α
  | [], fails => .exhausted fails
  | p :: ps, fails =>
    match p.fetch with
    | .ok r => .success p.name r
    | .error e => tryProviders ps (fails ++ [(p.name, e)])

/-- Modelled from the spec, §4.4: the `FetcherManager` failover walk for one
request of capability `c` against the registration list `registered`
(registration order = list order).  Zero registered providers for the
capability fail immediately with `noProvider`. -/
def fetchData {α : Type} (registered : List (ProviderM α)) (c : Capability) :
    FetchOutcome α :=
  let ps := resolveOrder registered c
  if ps.isEmpty then .noProvider else tryProviders ps []

/-- Modelled from the spec: the names of the providers the walk actually
invokes, in order — the walk stops at the first success. -/
def attemptNames {α : Type} : List (ProviderM α) → List String
  | [] => []
  | p :: ps =>
    match p.fetch with
    | .ok _ => [p.name]
    | .error _ => p.name :: attemptNames ps

/-! ### RateLimiter (modelled from the spec) -/

/-- Call timestamp `s` lies in the rolling 60-second window ending at `u`. -/
def inWindow (u s : ℚ) : Bool := decide (u - 60 < s) && decide (s ≤ u)

/-- Number of recorded calls inside the rolling 60-second window ending at `u`. -/
def windowCount (calls : List ℚ) (u : ℚ) : ℕ :=
  (calls.filter (fun s => inWindow u s)).length

/-- The simulated clock on entry to `acquire`: the request time, but never
earlier than an already-recorded call (the sequential caller cannot issue
the next call before the previous one was admitted). -/
def curTime (calls : List ℚ) (tReq : ℚ) : ℚ := calls.foldr max tReq

/-- The recorded calls still inside the window at time `t`. -/
def recentCalls (calls : List ℚ) (t : ℚ) : List ℚ :=
  calls.filter (fun s => decide (t - 60 < s))

/-- Minimum of a list with a default. -/
def listMin (l : List ℚ) (d : ℚ) : ℚ := l.foldr min d

/-- Modelled from the spec, §4.1 mechanism 1: the time at which a quota slot
becomes available.  If the window is not at the ceiling the call is admitted
now; otherwise the caller blocks until the earliest call in the window ages
out (its timestamp plus 60). -/
def slotTime (ceiling : ℕ) (calls : List ℚ) (tReq : ℚ) : ℚ :=
  if (recentCalls calls (curTime calls tReq)).length < ceiling then
    curTime calls tReq
  else listMin (recentCalls calls (curTime calls tReq)) (curTime calls tReq) + 60

/-- Modelled from the spec, §4.1: `acquire` waits for a quota slot, applies
the anti-blocking jitter delay `j ≥ 0`, and records the call timestamp
immediately before the call proceeds.  Returns the admission time and the
new window. -/
def acquire (ceiling : ℕ) (calls : List ℚ) (tReq j : ℚ) : ℚ × List ℚ :=
  let tAdmit := slotTime ceiling calls tReq + j
  (tAdmit, tAdmit :: calls)

/-- Modelled from the spec: a sequential simulation of `acquire` over a list
of (request time, jitter) pairs against one provider's window. -/
def runAcquires (ceiling : ℕ) (reqs : List (ℚ × ℚ)) : List ℚ :=
  reqs.foldl (fun calls r => (acquire ceiling calls r.1 r.2).2) []

/-! ### RetryPolicy backoff (modelled from the spec) -/

/-- Modelled from the spec, §4.2: the backoff schedule of the `RetryPolicy`
executor (`src/data_provider/base.py`, not under `src/`): the delay grows
from `retry_base_delay`, doubling each attempt, capped at `retry_max_delay`.
`backoffDelays base maxd n` lists the delay applied after attempt `i` for
`i = 1..n`. -/
def backoffDelays (base maxd : ℚ) : ℕ → List ℚ
  | 0 => []
  | n + 1 => min base maxd :: backoffDelays (2 * base) maxd n

/-! ### FeishuBitableReader (src/feishu_bitable.py) -/

/-- A Python value found in a Bitable record field: a string, a list, or
some other (non-string, non-list) value carrying only its truthiness. -/
inductive FieldVal
  | str (s : String)
  | list (l : List FieldVal)
  | other (truthy : Bool)

/-- Python truthiness of a field value (`if stock_code:`). -/
def fieldTruthy : FieldVal → Bool
  | .str s => !s.isEmpty
  | .list l => !l.isEmpty
  | .other t => t

/-- Python truthiness of an optional string (`None` and `''` are falsy). -/
def pyTruthyS : Option String → Bool
  | none => false
  | some s => !s.isEmpty

/-- Python truthiness of an optional float (`None` and `0.0` are falsy). -/
def pyTruthyQ : Option ℚ → Bool
  | none => false
  | some q => decide (q ≠ 0)

/-- One Bitable record, reduced to its `fields` dict (`record.get("fields", {})`);
the dict is an association list with the source's unique keys. -/
structure BitableRecord where
  fields : List (String × FieldVal)

/-- `fields.get(k)` on the association list (first matching key). -/
def pyDictGet (fields : List (String × FieldVal)) (k : String) : Option FieldVal :=
  (fields.find? (fun kv => kv.1 == k)).map (fun kv => kv.2)

/-- The field-name fallback chain of `_extract_stock_codes`: the caller's
`field_name`, then `股票代码`, `代码`, `code`, `Code`. -/
def recordCodeField (fields : List (String × FieldVal)) (field_name : String) :
    Option FieldVal :=
  match pyDictGet fields field_name with
  | some v => some v
  | none =>
    match pyDictGet fields "股票代码" with
    | some v => some v
    | none =>
      match pyDictGet fields "代码" with
      | some v => some v
      | none =>
        match pyDictGet fields "code" with
        | some v => some v
        | none => pyDictGet fields "Code"

/-- The cleaning in `_extract_stock_codes`: `strip()`, remove every `sz`
and every `sh` substring, then truncate at the first `.`
(`stock_code.split('.')[0]`). -/
def cleanCode (s : String) : String :=
  ⟨(pySplitChar '.' (removePair 's' 'h' (removePair 's' 'z' (pyStrip s.data)))).headD []⟩

/-- The acceptance test of `_extract_stock_codes`:
`stock_code and len(stock_code) == 6 and stock_code.isdigit()`.
Python `str.isdigit` is a per-character Unicode property (true exactly on
characters of Numeric_Type Decimal or Digit — the ASCII digits but also,
e.g., superscript and fullwidth digits); rather than transcribe that table,
the pipeline takes the character predicate `dig` as a parameter, and the
theorems below quantify over every `dig`, so they hold in particular at the
actual `str.isdigit` predicate. -/
def validCode (dig : Char → Bool) (s : String) : Bool :=
  !s.isEmpty && s.length == 6 && s.data.all dig

/-- The per-record body of the `_extract_stock_codes` loop: the at most one
code a record contributes.  A list value is replaced by its first element
(`None` when empty); only string values are cleaned and tested; everything
else is logged and dropped. -/
def extractCode (dig : Char → Bool) (field_name : String)
    (fields : List (String × FieldVal)) : Option String :=
  match recordCodeField fields field_name with
  | none => none
  | some v =>
    if fieldTruthy v then
      let w : Option FieldVal :=
        match v with
        | .list l => l.head?
        | _ => some v
      match w with
      | some (.str s) =>
        let cleaned := cleanCode s
        if validCode dig cleaned then some cleaned else none
      | _ => none
    else none

/-- `FeishuBitableReader._extract_stock_codes`: each record appends at most
one cleaned, validated code. -/
def extract_stock_codes (dig : Char → Bool) (items : List BitableRecord)
    (field_name : String) : List String :=
  items.filterMap (fun r => extractCode dig field_name r.fields)

/-- The reader's mutable state: the credential fields `__init__` assigns
(`self.app_id`, `self.app_secret`, `self.table_token`) and the token cache
(`self._access_token`, `self._token_expires_at`).  Note that `__init__`
sources the credentials from `config.feishu_app_id_bitable or
config.feishu_app_id` etc.; `src/config.py` defines no
`feishu_app_id_bitable`/`feishu_table_token` fields, so the reader is
modelled over the credential values directly. -/
structure FeishuReader where
  app_id : Option String
  app_secret : Option String
  table_token : Option String
  access_token : Option String := none
  token_expires_at : Option ℚ := none
deriving DecidableEq

/-- `FeishuBitableReader.is_configured`:
`bool(self.app_id and self.app_secret and self.table_token)`. -/
def is_configured (r : FeishuReader) : Bool :=
  pyTruthyS r.app_id && pyTruthyS r.app_secret && pyTruthyS r.table_token

/-- The token endpoint's JSON reply: `code`, and `tenant_access_token` when
present. -/
structure TokenResp where
  code : ℤ
  tenant_access_token : Option String
deriving DecidableEq

/-- A network interaction: an exception (connection error, timeout, or a
`raise_for_status` HTTP error — all caught by the reader) or a decoded
reply. -/
inductive NetResult (α : Type)
  | exn
  | resp (a : α)

/-- The `data` object of a table-records reply; absent members behave as the
defaults `result.get(...)` substitutes. -/
structure RecordsData where
  items : List BitableRecord := []
  has_more : Bool := false
  page_token : Option String := none

/-- A table-records JSON reply. -/
structure RecordsResp where
  code : ℤ
  data : RecordsData := {}

/-- The vendor as the reader observes it: the token endpoint's behaviour and
the records endpoint's behaviour per page token (`page_size` is always 100
and the URL parameters do not vary otherwise within one read). -/
structure FeishuOracle where
  tokenResp : NetResult TokenResp
  recordsResp : Option String → NetResult RecordsResp

/-- The HTTP requests the reader issues, in order. -/
inductive HttpReq
  | token
  | records (pageTok : Option String)
deriving DecidableEq

/-- The cache test of `_get_tenant_access_token`: a truthy cached token, a
truthy cached expiry, and the current time strictly before it. -/
def cacheValid (now : ℚ) (r : FeishuReader) : Bool :=
  pyTruthyS r.access_token && pyTruthyQ r.token_expires_at &&
    (match r.token_expires_at with
     | some e => decide (now < e)
     | none => false)

/-- `FeishuBitableReader._get_tenant_access_token`: serve from the cache
while valid; otherwise request a token, cache it with expiry `now + 5400`
on a `code == 0` reply, and return `None` (state unchanged) on an exception
or a non-zero reply code.  Returns (token, new state, issued requests). -/
def get_tenant_access_token (net : NetResult TokenResp) (now : ℚ)
    (r : FeishuReader) : Option String × FeishuReader × List HttpReq :=
  if cacheValid now r then (r.access_token, r, [])
  else
    match net with
    | .exn => (none, r, [.token])
    | .resp d =>
      if d.code ≠ 0 then (none, r, [.token])
      else (d.tenant_access_token,
            { r with access_token := d.tenant_access_token,
                     token_expires_at := some (now + 5400) },
            [.token])

/-- `FeishuBitableReader._list_table_records`: acquire a token (abandon the
page when it is falsy), then fetch one page; `None` on an exception or a
non-zero reply code. -/
def list_table_records (oracle : FeishuOracle) (now : ℚ) (r : FeishuReader)
    (pageTok : Option String) :
    Option RecordsResp × FeishuReader × List HttpReq :=
  match get_tenant_access_token oracle.tokenResp now r with
  | (tok, r1, tr) =>
    if pyTruthyS tok then
      match oracle.recordsResp pageTok with
      | .exn => (none, r1, tr ++ [.records pageTok])
      | .resp d =>
        if d.code ≠ 0 then (none, r1, tr ++ [.records pageTok])
        else (some d, r1, tr ++ [.records pageTok])
    else (none, r1, tr)

/-- The `while has_more and page_token:` pagination loop shared by
`read_stock_list`; `fuel` bounds the number of further pages (a server that
keeps answering `has_more` would loop forever). -/
def readLoop (dig : Char → Bool) (oracle : FeishuOracle) (now : ℚ)
    (fname : String) :
    ℕ → FeishuReader → Bool → Option String →
    List String × FeishuReader × List HttpReq
  | 0, r, _, _ => ([], r, [])
  | fuel + 1, r, has_more, pageTok =>
    if has_more && pyTruthyS pageTok then
      match list_table_records oracle now r pageTok with
      | (none, r1, tr) => ([], r1, tr)
      | (some d, r1, tr) =>
        let codes := extract_stock_codes dig d.data.items fname
        match readLoop dig oracle now fname fuel r1 d.data.has_more
            d.data.page_token with
        | (more, r2, tr2) => (codes ++ more, r2, tr ++ tr2)
    else ([], r, [])

/-- An observable Python call result: a returned value or an uncaught
exception. -/
inductive PyResult (α : Type)
  | ok (a : α)
  | exn
deriving DecidableEq

/-- `FeishuBitableReader.read_stock_list`: empty when unconfigured; empty
(after an error log) when `table_token` contains no `/`; when it does, the
source unpacks `self.table_token.split('/')` into exactly two names, which
raises `ValueError` for three or more parts; then first page plus
pagination.  Returns (result, final reader state, issued requests). -/
def read_stock_list (dig : Char → Bool) (oracle : FeishuOracle) (now : ℚ)
    (fuel : ℕ) (fname : String) (r : FeishuReader) :
    PyResult (List String) × FeishuReader × List HttpReq :=
  if !is_configured r then (.ok [], r, [])
  else
    let tt := r.table_token.getD ""
    if tt.data.contains '/' then
      if (pySplitChar '/' tt.data).length == 2 then
        match list_table_records oracle now r none with
        | (none, r1, tr) => (.ok [], r1, tr)
        | (some d, r1, tr) =>
          let codes := extract_stock_codes dig d.data.items fname
          match readLoop dig oracle now fname fuel r1 d.data.has_more
              d.data.page_token with
          | (more, r2, tr2) => (.ok (codes ++ more), r2, tr ++ tr2)
      else (.exn, r, [])
    else (.ok [], r, [])

/-- `FeishuBitableReader._process_records`: keep only the requested field
names when a non-empty list is given (`if field_names:` is Python-falsy on
`[]`), else copy the fields dict. -/
def process_records (items : List BitableRecord)
    (field_names : Option (List String)) : List (List (String × FieldVal)) :=
  items.map (fun r =>
    match field_names with
    | some (f :: fs) => r.fields.filter (fun kv => (f :: fs).contains kv.1)
    | _ => r.fields)

/-- The pagination loop of `get_table_records`. -/
def recordsLoop (oracle : FeishuOracle) (now : ℚ)
    (field_names : Option (List String)) :
    ℕ → FeishuReader → Bool → Option String →
    List (List (String × FieldVal)) × FeishuReader × List HttpReq
  | 0, r, _, _ => ([], r, [])
  | fuel + 1, r, has_more, pageTok =>
    if has_more && pyTruthyS pageTok then
      match list_table_records oracle now r pageTok with
      | (none, r1, tr) => ([], r1, tr)
      | (some d, r1, tr) =>
        let recs := process_records d.data.items field_names
        match recordsLoop oracle now field_names fuel r1 d.data.has_more
            d.data.page_token with
        | (more, r2, tr2) => (recs ++ more, r2, tr ++ tr2)
    else ([], r, [])

/-- `FeishuBitableReader.get_table_records`: same guards and pagination as
`read_stock_list`, collecting processed field dicts. -/
def get_table_records (oracle : FeishuOracle) (now : ℚ) (fuel : ℕ)
    (field_names : Option (List String)) (r : FeishuReader) :
    PyResult (List (List (String × FieldVal))) × FeishuReader × List HttpReq :=
  if !is_configured r then (.ok [], r, [])
  else
    let tt := r.table_token.getD ""
    if tt.data.contains '/' then
      if (pySplitChar '/' tt.data).length == 2 then
        match list_table_records oracle now r none with
        | (none, r1, tr) => (.ok [], r1, tr)
        | (some d, r1, tr) =>
          let recs := process_records d.data.items field_names
          match recordsLoop oracle now field_names fuel r1 d.data.has_more
              d.data.page_token with
          | (more, r2, tr2) => (.ok (recs ++ more), r2, tr ++ tr2)
      else (.exn, r, [])
    else (.ok [], r, [])

/-! ### parse_feishu_bitable_url (src/feishu_url_helper.py) -/

/-- The literal `/base/` of the two search patterns. -/
def baseLit : List Char := ['/', 'b', 'a', 's', 'e', '/']

/-- The literal `/~/` of the first search pattern. -/
def tildeLit : List Char := ['/', '~', '/']

/-- The maximal run of non-`/` characters — what a greedy `[^/]+` consumes
before a literal that starts with `/` (or before the pattern ends). -/
def takeNS (l : List Char) : List Char := l.takeWhile (fun c => !(c == '/'))

/-- What remains after that run. -/
def dropNS (l : List Char) : List Char := l.dropWhile (fun c => !(c == '/'))

/-- A match of `([^/]+)/~/([^/]+)` directly at the given position (the text
after a consumed `/base/`): both groups are the maximal non-`/` runs and
must be non-empty. -/
def matchTail (cs : List Char) : Option (List Char × List Char) :=
  let g1 := takeNS cs
  let r1 := dropNS cs
  if g1.isEmpty then none
  else if leadsWith tildeLit r1 then
    let g2 := takeNS (r1.drop 3)
    if g2.isEmpty then none else some (g1, g2)
  else none

/-- A match of the pattern `/base/([^/]+)/~/([^/]+)` anchored at the start
of `cs`. -/
def matchAt1 (cs : List Char) : Option (List Char × List Char) :=
  if leadsWith baseLit cs then matchTail (cs.drop 6) else none

/-- A match of the pattern `/base/([^/]+)/?$` anchored at the start of
`cs`: the group is the maximal non-`/` run, after which at most a single
`/` may remain before the end of the text. -/
def matchAt2 (cs : List Char) : Option (List Char) :=
  if leadsWith baseLit cs then
    let g1 := takeNS (cs.drop 6)
    let r := dropNS (cs.drop 6)
    if g1.isEmpty then none
    else if r.isEmpty || r == ['/'] then some g1 else none
  else none

/-- `re.search` with the first pattern: the leftmost position with a match. -/
def search1 : List Char → Option (List Char × List Char)
  | [] => none
  | c :: cs =>
    match matchAt1 (c :: cs) with
    | some r => some r
    | none => search1 cs

/-- `re.search` with the second pattern. -/
def search2 : List Char → Option (List Char)
  | [] => none
  | c :: cs =>
    match matchAt2 (c :: cs) with
    | some r => some r
    | none => search2 cs

/-- Python `url.rstrip('/')`. -/
def rstripSlash (l : List Char) : List Char :=
  (l.reverse.dropWhile (fun c => c == '/')).reverse

/-- `parse_feishu_bitable_url` of `src/feishu_url_helper.py`: drop the query
(`url.split('?')[0]`, the longest `?`-free prefix — a no-op when no `?`
occurs, exactly as the guarded source line), strip trailing slashes, then
search for `/base/([^/]+)/~/([^/]+)` and fall back to
`/base/([^/]+)/?$`. -/
def parse_feishu_bitable_url (url : String) :
    Option (String × Option String × String) :=
  let cs1 := url.data.takeWhile (fun c => !(c == '?'))
  let cs := rstripSlash cs1
  match search1 cs with
  | some (g1, g2) => some (⟨g1⟩, some ⟨g2⟩, ⟨g1 ++ '/' :: g2⟩)
  | none =>
    match search2 cs with
    | some g1 => some (⟨g1⟩, none, ⟨g1⟩)
    | none => none

/-! ### Concrete fixtures used by witnesses and counterexamples -/

/-- An empty process environment (no variable set). -/
def envEmpty : Env := fun _ => none

/-- The configuration `_load_from_env` builds from the empty environment:
all dataclass defaults plus the fallback watchlist. -/
def configFromEmptyEnv : Config := { stock_list := ["600519", "000001", "300750"] }

/-- Fixture: provider A of the spec's failover example — priority 1,
failing. -/
def provA : ProviderM ℕ := ⟨"A", 1, [Capability.basicInfo], .error "auth failed"⟩

/-- Fixture: provider B — priority 2, registered before C, failing. -/
def provB : ProviderM ℕ := ⟨"B", 2, [Capability.basicInfo], .error "timeout"⟩

/-- Fixture: provider C — priority 2, succeeding with payload 42. -/
def provC : ProviderM ℕ := ⟨"C", 2, [Capability.basicInfo], .ok 42⟩

/-- Fixture: provider C failing, for the exhaustion scenario. -/
def provCf : ProviderM ℕ := ⟨"C", 2, [Capability.basicInfo], .error "rate limited"⟩

/-- Fixture: a vendor that always fails at the network level. -/
def oracleDead : FeishuOracle := ⟨.exn, fun _ => .exn⟩

/-- Fixture: a fully configured reader whose `table_token` splits into
three parts. -/
def readerBadToken : FeishuReader :=
  { app_id := some "cli_a", app_secret := some "sec", table_token := some "a/b/c" }

/-- Fixture: a reader with a missing `app_id`. -/
def readerUnconfigured : FeishuReader :=
  { app_id := none, app_secret := some "sec", table_token := some "a/b" }

/-- Fixture: a configured reader holding a cached, unexpired token. -/
def readerCached : FeishuReader :=
  { app_id := some "cli_a", app_secret := some "sec", table_token := some "a/b",
    access_token := some "tok", token_expires_at := some 100 }

/-- Fixture: two Bitable records, one with a prefixed/suffixed code and one
with a non-string field value. -/
def sampleRecords : List BitableRecord :=
  [⟨[("股票代码", FieldVal.str " sz600519.SZ ")]⟩,
   ⟨[("code", FieldVal.other true)]⟩]

/-- Fixture: a digit predicate refining the ASCII digits by one character
Python's `str.isdigit` also accepts: `'²'` (U+00B2 SUPERSCRIPT TWO has
Numeric_Type Digit, so `'²'.isdigit()` is `True` in Python).  Every
character this predicate accepts, the source's `isdigit()` accepts. -/
def pyDigitSup (c : Char) : Bool := c.isDigit || c == '²'

/-- Fixture: a Bitable record whose code field is six superscript twos —
each a Python digit, none an ASCII decimal digit. -/
def supRecord : BitableRecord := ⟨[("股票代码", FieldVal.str "²²²²²²")]⟩

/-- Fixture: a vendor serving a single page holding `supRecord`. -/
def oracleSup : FeishuOracle :=
  ⟨.exn, fun _ => .resp ⟨0, ⟨[supRecord], false, none⟩⟩⟩

/-- Fixture: an environment that only sets `STOCK_LIST`. -/
def envStock : Env := fun k => if k == "STOCK_LIST" then some "600519, 000001" else none

/-- The configuration `_load_from_env` builds from `envStock`. -/
def configFromStockEnv : Config := { stock_list := ["600519", "000001"] }

/-! ## Theorems -/

/-! ### Shared facts about `_load_from_env` -/

/-- Destructuring `load_from_env env = some c`: the fields the claims look
at.  The retry/rate-limit fields are not read from the environment at all;
`stock_list` is the parsed list with the hard-coded fallback. -/
theorem load_from_env_char (env : Env) (c : Config)
    (h : load_from_env env = some c) :
    c.retry_base_delay = 1 ∧ c.retry_max_delay = 30 ∧ c.max_retries = 3 ∧
    c.tushare_rate_limit_per_minute = 80 ∧
    c.stock_list = (if (parseCommaList (getenvD env "STOCK_LIST" "")).isEmpty
                    then ["600519", "000001", "300750"]
                    else parseCommaList (getenvD env "STOCK_LIST" "")) := by
  simp only [load_from_env, bind, Option.bind_eq_some, pure, Option.some.injEq] at h
  obtain ⟨d1, h1, d2, h2, d3, h3, d4, h4, d5, h5, d6, h6, d7, h7, hc⟩ := h
  subst hc
  refine ⟨rfl, rfl, rfl, rfl, ?_⟩
  by_cases hsl : (parseCommaList (getenvD env "STOCK_LIST" "")).isEmpty <;>
    simp [hsl]

/-- The empty environment loads successfully, to the defaults plus the
fallback watchlist. -/
theorem load_from_env_envEmpty :
    load_from_env envEmpty = some configFromEmptyEnv := by decide

/-! ### C3: the retry backoff schedule -/

/-- Closed form of the doubling-with-cap schedule. -/
theorem backoffDelays_eq (maxd : ℚ) (n : ℕ) : ∀ base : ℚ,
    backoffDelays base maxd n
      = (List.range n).map (fun k => min (base * 2 ^ k) maxd) := by
  induction n with
  | zero => intro base; rfl
  | succ n ih =>
    intro base
    rw [List.range_succ_eq_map, backoffDelays]
    simp only [List.map_cons, List.map_map]
    refine congrArg₂ List.cons (by norm_num) ?_
    rw [ih (2 * base)]
    refine List.map_congr_left ?_
    intro k _
    simp only [Function.comp_apply]
    have hp : base * 2 ^ (k + 1) = 2 * base * 2 ^ k := by ring
    rw [hp]

/-- C3: for every attempt index i ≥ 1 within the schedule, the backoff
delay after attempt i equals min(retry_base_delay · 2^(i-1),
retry_max_delay); the instance max_retries = 5, base = 1.0, max = 30.0
yields exactly the delays 1, 2, 4, 8, 16; and every successfully loaded
configuration carries the code defaults retry_base_delay = 1.0,
retry_max_delay = 30.0, max_retries = 3. -/
theorem c3_retry_backoff :
    (∀ (base maxd : ℚ) (n i : ℕ), 1 ≤ i → i ≤ n →
      (backoffDelays base maxd n)[i - 1]? = some (min (base * 2 ^ (i - 1)) maxd))
    ∧ backoffDelays 1 30 5 = [1, 2, 4, 8, 16]
    ∧ (∀ (env : Env) (c : Config), load_from_env env = some c →
        c.retry_base_delay = 1 ∧ c.retry_max_delay = 30 ∧ c.max_retries = 3) := by
  refine ⟨?_, by norm_num [backoffDelays, min_def], ?_⟩
  · intro base maxd n i h1 h2
    rw [backoffDelays_eq]
    rw [List.getElem?_map, List.getElem?_range (by omega : i - 1 < n)]
    rfl
  · intro env c h
    obtain ⟨hb, hm, hr, -, -⟩ := load_from_env_char env c h
    exact ⟨hb, hm, hr⟩

/-- Witness for C3 at the claim's concrete instance. -/
theorem c3_retry_backoff_witness :
    (backoffDelays 1 30 5)[4]? = some (min ((1 : ℚ) * 2 ^ 4) 30)
    ∧ configFromEmptyEnv.retry_base_delay = 1
    ∧ configFromEmptyEnv.retry_max_delay = 30
    ∧ configFromEmptyEnv.max_retries = 3 := by
  refine ⟨c3_retry_backoff.1 1 30 5 5 (by norm_num) (by norm_num), ?_⟩
  exact c3_retry_backoff.2.2 envEmpty configFromEmptyEnv load_from_env_envEmpty

/-! ### C1/C4: the failover walk -/

/-- Membership in a stable insertion. -/
theorem mem_insertProv {α : Type} (p x : ProviderM α) (l : List (ProviderM α)) :
    x ∈ insertProv p l ↔ x = p ∨ x ∈ l := by
  induction l with
  | nil => simp [insertProv]
  | cons q qs ih =>
    by_cases hc : p.priority ≤ q.priority
    · simp [insertProv, hc]
    · simp only [insertProv, if_neg hc, List.mem_cons, ih]
      tauto

/-- Stable insertion preserves sortedness by priority. -/
theorem pairwise_insertProv {α : Type} (p : ProviderM α) (l : List (ProviderM α))
    (h : List.Pairwise (fun a b : ProviderM α => a.priority ≤ b.priority) l) :
    List.Pairwise (fun a b : ProviderM α => a.priority ≤ b.priority)
      (insertProv p l) := by
  induction l with
  | nil => simp [insertProv]
  | cons q qs ih =>
    rw [List.pairwise_cons] at h
    obtain ⟨hq, hqs⟩ := h
    by_cases hc : p.priority ≤ q.priority
    · rw [insertProv, if_pos hc, List.pairwise_cons]
      refine ⟨?_, List.pairwise_cons.mpr ⟨hq, hqs⟩⟩
      intro x hx
      rcases List.mem_cons.mp hx with rfl | hx
      · exact hc
      · exact le_trans hc (hq x hx)
    · rw [insertProv, if_neg hc, List.pairwise_cons]
      refine ⟨?_, ih hqs⟩
      intro x hx
      rcases (mem_insertProv p x qs).mp hx with rfl | hx
      · omega
      · exact hq x hx

/-- The sorted provider list is sorted by ascending priority. -/
theorem pairwise_sortProviders {α : Type} (l : List (ProviderM α)) :
    List.Pairwise (fun a b : ProviderM α => a.priority ≤ b.priority)
      (sortProviders l) := by
  induction l with
  | nil => exact List.Pairwise.nil
  | cons p ps ih => exact pairwise_insertProv p (sortProviders ps) ih

/-- Stable insertion is a permutation of consing. -/
theorem perm_insertProv {α : Type} (p : ProviderM α) (l : List (ProviderM α)) :
    (insertProv p l).Perm (p :: l) := by
  induction l with
  | nil => simp [insertProv]
  | cons q qs ih =>
    by_cases hc : p.priority ≤ q.priority
    · rw [insertProv, if_pos hc]
    · rw [insertProv, if_neg hc]
      exact (List.Perm.cons q ih).trans (List.Perm.swap p q qs)

/-- The sort permutes the registration list. -/
theorem perm_sortProviders {α : Type} (l : List (ProviderM α)) :
    (sortProviders l).Perm l := by
  induction l with
  | nil => exact List.Perm.refl []
  | cons p ps ih => exact (perm_insertProv p (sortProviders ps)).trans (.cons p ih)

/-- Stability of the insertion: the providers of any fixed priority rank
keep their relative order. -/
theorem filter_insertProv {α : Type} (p : ProviderM α) (l : List (ProviderM α))
    (k : ℕ) :
    (insertProv p l).filter (fun q => q.priority == k)
      = ((p :: l).filter (fun q => q.priority == k)) := by
  induction l with
  | nil => rfl
  | cons q qs ih =>
    by_cases hc : p.priority ≤ q.priority
    · rw [insertProv, if_pos hc]
    · rw [insertProv, if_neg hc]
      by_cases hq : q.priority = k
      · have hp : ¬ p.priority = k := by omega
        simp [List.filter_cons, hq, hp] at ih ⊢
        exact ih
      · by_cases hp : p.priority = k <;> simp [List.filter_cons, hq, hp] at ih ⊢ <;>
          exact ih

/-- Stability of the sort: for every priority rank the sorted list keeps
the registration order of that rank's providers. -/
theorem filter_sortProviders {α : Type} (l : List (ProviderM α)) (k : ℕ) :
    (sortProviders l).filter (fun q => q.priority == k)
      = l.filter (fun q => q.priority == k) := by
  induction l with
  | nil => rfl
  | cons p ps ih =>
    rw [sortProviders, filter_insertProv p (sortProviders ps) k]
    by_cases hp : p.priority = k <;> simp [List.filter_cons, hp] <;> exact ih

/-- The walk returns the first success and ignores everything after it. -/
theorem tryProviders_first_success {α : Type} (pre : List (ProviderM α))
    (p : ProviderM α) (post : List (ProviderM α)) (r : α)
    (hpre : ∀ q ∈ pre, ∃ e, q.fetch = .error e) (hp : p.fetch = .ok r) :
    ∀ acc, tryProviders (pre ++ p :: post) acc = .success p.name r := by
  induction pre with
  | nil => intro acc; simp [tryProviders, hp]
  | cons q qs ih =>
    intro acc
    obtain ⟨e, he⟩ := hpre q (by simp)
    rw [List.cons_append, tryProviders, he]
    exact ih (fun x hx => hpre x (by simp [hx])) _

/-- The providers invoked up to and including the first success. -/
theorem attemptNames_first_success {α : Type} (pre : List (ProviderM α))
    (p : ProviderM α) (post : List (ProviderM α)) (r : α)
    (hpre : ∀ q ∈ pre, ∃ e, q.fetch = .error e) (hp : p.fetch = .ok r) :
    attemptNames (pre ++ p :: post) = pre.map (fun q => q.name) ++ [p.name] := by
  induction pre with
  | nil => simp [attemptNames, hp]
  | cons q qs ih =>
    obtain ⟨e, he⟩ := hpre q (by simp)
    rw [List.cons_append, attemptNames, he]
    rw [ih (fun x hx => hpre x (by simp [hx]))]
    simp

/-- A walk in which everything fails aggregates every failure, in order. -/
theorem tryProviders_all_fail {α : Type} (errs : ProviderM α → String) :
    ∀ (l : List (ProviderM α)) (acc : List (String × String)),
      (∀ q ∈ l, q.fetch = .error (errs q)) →
      tryProviders l acc = .exhausted (acc ++ l.map (fun q => (q.name, errs q))) := by
  intro l
  induction l with
  | nil => intro acc _; simp [tryProviders]
  | cons q qs ih =>
    intro acc h
    rw [tryProviders, h q (by simp)]
    dsimp only
    rw [ih (acc ++ [(q.name, errs q)]) (fun x hx => h x (by simp [hx]))]
    simp

/-- When everything fails, every provider is invoked. -/
theorem attemptNames_all_fail {α : Type} :
    ∀ l : List (ProviderM α), (∀ q ∈ l, ∃ e, q.fetch = .error e) →
      attemptNames l = l.map (fun q => q.name) := by
  intro l
  induction l with
  | nil => intro _; rfl
  | cons q qs ih =>
    intro h
    obtain ⟨e, he⟩ := h q (by simp)
    rw [attemptNames, he, ih (fun x hx => h x (by simp [hx]))]
    rfl

/-- C1: for a request whose capability has registered providers, the
manager's attempt order is deterministic — the providers supporting the
capability, sorted by ascending priority rank with ties in registration
order (sortedness, permutation and per-rank stability below) — and the
first provider that succeeds ends the walk: the manager returns exactly its
result, the providers invoked are the failing prefix plus that provider,
and nobody after it is tried, so at most one provider succeeds. -/
theorem c1_failover_first_success {α : Type} (registered : List (ProviderM α))
    (c : Capability) (pre post : List (ProviderM α)) (p : ProviderM α) (r : α)
    (hsplit : resolveOrder registered c = pre ++ p :: post)
    (hpre : ∀ q ∈ pre, ∃ e, q.fetch = .error e)
    (hp : p.fetch = .ok r) :
    fetchData registered c = .success p.name r
    ∧ attemptNames (resolveOrder registered c)
        = pre.map (fun q => q.name) ++ [p.name]
    ∧ List.Pairwise (fun a b : ProviderM α => a.priority ≤ b.priority)
        (resolveOrder registered c)
    ∧ (resolveOrder registered c).Perm
        (registered.filter (fun q => supports q c))
    ∧ ∀ k : ℕ, (resolveOrder registered c).filter (fun q => q.priority == k)
        = (registered.filter (fun q => supports q c)).filter
            (fun q => q.priority == k) := by
  refine ⟨?_, ?_, ?_, ?_, ?_⟩
  · rw [fetchData, hsplit]
    have hne : ((pre ++ p :: post).isEmpty) = false := by
      cases pre <;> rfl
    rw [hne]
    simp only [Bool.false_eq_true, if_false]
    exact tryProviders_first_success pre p post r hpre hp []
  · rw [hsplit]
    exact attemptNames_first_success pre p post r hpre hp
  · exact pairwise_sortProviders _
  · exact perm_sortProviders _
  · intro k
    exact filter_sortProviders _ k

/-- Witness for C1: the spec's example [A(1), B(2), C(2)], only C
succeeding — the attempt order is A, B, C and the result is C's output. -/
theorem c1_failover_first_success_witness :
    fetchData [provA, provB, provC] Capability.basicInfo
      = .success "C" 42
    ∧ attemptNames (resolveOrder [provA, provB, provC] Capability.basicInfo)
        = ["A", "B", "C"] := by
  have h := c1_failover_first_success [provA, provB, provC] Capability.basicInfo
    [provA, provB] [] provC 42 rfl
    (by
      intro q hq
      rcases List.mem_cons.mp hq with rfl | hq
      · exact ⟨"auth failed", rfl⟩
      rcases List.mem_cons.mp hq with rfl | hq
      · exact ⟨"timeout", rfl⟩
      · exact absurd hq (List.not_mem_nil q))
    rfl
  refine ⟨h.1, ?_⟩
  rw [h.2.1]
  rfl

/-- C4: when every provider registered for the capability fails
terminally, the manager returns the single aggregated failure whose
entries are exactly one `(provider, terminal reason)` pair per attempted
provider, in attempt order, and every provider was attempted. -/
theorem c4_exhaustion_aggregate {α : Type} (registered : List (ProviderM α))
    (c : Capability) (errs : ProviderM α → String)
    (hne : resolveOrder registered c ≠ [])
    (hfail : ∀ q ∈ resolveOrder registered c, q.fetch = .error (errs q)) :
    fetchData registered c
      = .exhausted ((resolveOrder registered c).map (fun q => (q.name, errs q)))
    ∧ attemptNames (resolveOrder registered c)
        = (resolveOrder registered c).map (fun q => q.name) := by
  constructor
  · rw [fetchData]
    have hne2 : (resolveOrder registered c).isEmpty = false := by
      cases h : resolveOrder registered c with
      | nil => exact absurd h hne
      | cons a l => rfl
    rw [hne2]
    simp only [Bool.false_eq_true, if_false]
    rw [tryProviders_all_fail errs _ [] hfail]
    rfl
  · exact attemptNames_all_fail _ (fun q hq => ⟨errs q, hfail q hq⟩)

/-- Witness for C4: all of A, B, C failing — the aggregated error lists
exactly the three failures in attempt order. -/
theorem c4_exhaustion_aggregate_witness :
    fetchData [provA, provB, provCf] Capability.basicInfo
      = .exhausted [("A", "auth failed"), ("B", "timeout"), ("C", "rate limited")]
    ∧ attemptNames (resolveOrder [provA, provB, provCf] Capability.basicInfo)
        = ["A", "B", "C"] := by
  have horder : resolveOrder [provA, provB, provCf] Capability.basicInfo
      = [provA, provB, provCf] := rfl
  have h := c4_exhaustion_aggregate [provA, provB, provCf] Capability.basicInfo
    (fun q => if q.name == "A" then "auth failed"
              else if q.name == "B" then "timeout" else "rate limited")
    (by rw [horder]; exact List.cons_ne_nil _ _)
    (by
      intro q hq
      rw [horder] at hq
      rcases List.mem_cons.mp hq with rfl | hq
      · rfl
      rcases List.mem_cons.mp hq with rfl | hq
      · rfl
      rcases List.mem_cons.mp hq with rfl | hq
      · rfl
      · exact absurd hq (List.not_mem_nil q))
  refine ⟨h.1.trans ?_, h.2.trans ?_⟩ <;> rw [horder] <;> rfl

/-! ### C2: the rolling-window quota -/

/-- Strict count comparison: a common element satisfying `q` but not `p`
makes the `p`-count strictly smaller when `p` implies `q` on the list. -/
theorem countP_lt_of_mem {l : List ℚ} {p q : ℚ → Bool} {r : ℚ} (hr : r ∈ l)
    (hpr : p r = false) (hqr : q r = true)
    (himp : ∀ x ∈ l, p x = true → q x = true) :
    l.countP p < l.countP q := by
  induction l with
  | nil => cases hr
  | cons a t ih =>
    rcases List.mem_cons.mp hr with rfl | hr2
    · rw [List.countP_cons_of_neg _ _ (by simp [hpr]),
        List.countP_cons_of_pos _ _ hqr]
      have hle := List.countP_mono_left (l := t) (p := p) (q := q)
        (fun x hx hpx => himp x (List.mem_cons_of_mem _ hx) hpx)
      omega
    · rw [List.countP_cons, List.countP_cons]
      have h1 := ih hr2 (fun x hx hpx => himp x (List.mem_cons_of_mem a hx) hpx)
      have h2 : (if p a then 1 else 0) ≤ (if q a then 1 else 0) := by
        by_cases hpa : p a = true
        · rw [if_pos hpa, if_pos (himp a (List.mem_cons_self a t) hpa)]
        · rw [if_neg hpa]
          by_cases hqa : q a = true <;> simp [hqa]
      omega

/-- The fold minimum is a lower bound of the list. -/
theorem listMin_le {l : List ℚ} {d x : ℚ} (hx : x ∈ l) : listMin l d ≤ x := by
  induction l with
  | nil => cases hx
  | cons a t ih =>
    rcases List.mem_cons.mp hx with rfl | hx2
    · exact min_le_left _ _
    · exact le_trans (min_le_right _ _) (ih hx2)

/-- The fold minimum is an element or the default. -/
theorem listMin_mem_or (l : List ℚ) (d : ℚ) : listMin l d ∈ l ∨ listMin l d = d := by
  induction l with
  | nil => right; rfl
  | cons a t ih =>
    rcases min_choice a (listMin t d) with h | h
    · left
      rw [show listMin (a :: t) d = min a (listMin t d) from rfl, h]
      exact List.mem_cons_self a t
    · rcases ih with h2 | h2
      · left
        rw [show listMin (a :: t) d = min a (listMin t d) from rfl, h]
        exact List.mem_cons_of_mem a h2
      · right
        rw [show listMin (a :: t) d = min a (listMin t d) from rfl, h, h2]

/-- On a non-empty list bounded by the default, the fold minimum is an
element. -/
theorem listMin_mem {l : List ℚ} {d : ℚ} (hne : l ≠ []) (hb : ∀ x ∈ l, x ≤ d) :
    listMin l d ∈ l := by
  rcases listMin_mem_or l d with h | h
  · exact h
  · cases l with
    | nil => exact absurd rfl hne
    | cons a t =>
      have h1 : listMin (a :: t) d ≤ a := listMin_le (List.mem_cons_self a t)
      have h2 : a ≤ d := hb a (List.mem_cons_self a t)
      have h3 : listMin (a :: t) d = a := le_antisymm h1 (by rw [h]; exact h2)
      rw [h3]
      exact List.mem_cons_self a t

/-- Every recorded call lies at or before the simulated clock. -/
theorem le_curTime_of_mem {calls : List ℚ} {tReq x : ℚ} (hx : x ∈ calls) :
    x ≤ curTime calls tReq := by
  induction calls with
  | nil => cases hx
  | cons a t ih =>
    rcases List.mem_cons.mp hx with rfl | hx2
    · exact le_max_left _ _
    · exact le_trans (ih hx2) (le_max_right _ _)

/-- Any window that contains the admission instant held strictly fewer than
`ceiling` earlier calls: the not-full branch admits below the ceiling, and
the full branch waits until the window's oldest call has aged out. -/
theorem windowCount_lt_of_inWindow {ceiling : ℕ} (hc : 0 < ceiling)
    {calls : List ℚ} (hInv : ∀ u, windowCount calls u ≤ ceiling) {tReq j u : ℚ}
    (hj : 0 ≤ j)
    (hin : inWindow u (slotTime ceiling calls tReq + j) = true) :
    windowCount calls u < ceiling := by
  have hin2 : u - 60 < slotTime ceiling calls tReq + j
      ∧ slotTime ceiling calls tReq + j ≤ u := by
    simpa [inWindow] using hin
  obtain ⟨hu1, hu2⟩ := hin2
  by_cases hfull : (recentCalls calls (curTime calls tReq)).length < ceiling
  · have hslot : slotTime ceiling calls tReq = curTime calls tReq := by
      rw [slotTime, if_pos hfull]
    have hchain : windowCount calls u ≤ (recentCalls calls (curTime calls tReq)).length := by
      rw [windowCount, ← List.countP_eq_length_filter, recentCalls,
        ← List.countP_eq_length_filter]
      apply List.countP_mono_left
      intro x hx hpx
      simp only [inWindow, Bool.and_eq_true, decide_eq_true_eq] at hpx
      simp only [decide_eq_true_eq]
      rw [hslot] at hu2
      linarith [hpx.1]
    omega
  · have hslot : slotTime ceiling calls tReq
        = listMin (recentCalls calls (curTime calls tReq)) (curTime calls tReq) + 60 := by
      rw [slotTime, if_neg hfull]
    set t := curTime calls tReq with ht
    set m := listMin (recentCalls calls t) t with hm
    have hrecb : ∀ x ∈ recentCalls calls t, x ≤ t := fun x hx =>
      le_curTime_of_mem (List.mem_of_mem_filter hx)
    have hne : recentCalls calls t ≠ [] := by
      intro h0
      rw [h0] at hfull
      simp only [List.length_nil] at hfull
      omega
    have hmem : m ∈ recentCalls calls t := listMin_mem hne hrecb
    have hmcalls : m ∈ calls := List.mem_of_mem_filter hmem
    have hmt : t - 60 < m := by
      have h := List.of_mem_filter hmem
      simpa using h
    have hmle : m ≤ t := hrecb m hmem
    have h1 : windowCount calls u ≤ List.countP (fun s => decide (m < s)) calls := by
      rw [windowCount, ← List.countP_eq_length_filter]
      apply List.countP_mono_left
      intro x hx hpx
      simp only [inWindow, Bool.and_eq_true, decide_eq_true_eq] at hpx
      simp only [decide_eq_true_eq]
      rw [hslot] at hu2
      linarith [hpx.1]
    have h2 : List.countP (fun s => decide (m < s)) calls
        < List.countP (fun s => inWindow t s) calls := by
      apply countP_lt_of_mem hmcalls
      · simp
      · simp only [inWindow, Bool.and_eq_true, decide_eq_true_eq]
        exact ⟨hmt, hmle⟩
      · intro x hx hpx
        simp only [decide_eq_true_eq] at hpx
        have hxt : x ≤ t := le_curTime_of_mem hx
        simp only [inWindow, Bool.and_eq_true, decide_eq_true_eq]
        exact ⟨by linarith, hxt⟩
    have h3 : List.countP (fun s => inWindow t s) calls ≤ ceiling := by
      rw [List.countP_eq_length_filter]
      exact hInv t
    omega

/-- One `acquire` preserves the window invariant. -/
theorem inv_acquire {ceiling : ℕ} (hc : 0 < ceiling) {calls : List ℚ}
    (hInv : ∀ u, windowCount calls u ≤ ceiling) {tReq j : ℚ} (hj : 0 ≤ j) :
    ∀ u, windowCount ((acquire ceiling calls tReq j).2) u ≤ ceiling := by
  intro u
  show windowCount ((slotTime ceiling calls tReq + j) :: calls) u ≤ ceiling
  rw [windowCount, List.filter_cons]
  by_cases hin : inWindow u (slotTime ceiling calls tReq + j) = true
  · simp only [hin, if_true, List.length_cons]
    have hlt := windowCount_lt_of_inWindow hc hInv hj hin
    rw [windowCount] at hlt
    omega
  · simp only [Bool.not_eq_true] at hin
    simp only [hin, Bool.false_eq_true, if_false]
    have h := hInv u
    rw [windowCount] at h
    exact h

/-- The invariant holds along any sequential simulation. -/
theorem runAcquires_inv (ceiling : ℕ) (hc : 0 < ceiling) :
    ∀ reqs : List (ℚ × ℚ), (∀ p ∈ reqs, 0 ≤ p.2) →
      ∀ u : ℚ, windowCount (runAcquires ceiling reqs) u ≤ ceiling := by
  have main : ∀ (reqs : List (ℚ × ℚ)) (calls : List ℚ),
      (∀ p ∈ reqs, 0 ≤ p.2) → (∀ u, windowCount calls u ≤ ceiling) →
      ∀ u, windowCount
        (reqs.foldl (fun cs r => (acquire ceiling cs r.1 r.2).2) calls) u ≤ ceiling := by
    intro reqs
    induction reqs with
    | nil => intro calls _ hInv u; exact hInv u
    | cons r rs ih =>
      intro calls hj hInv u
      rw [List.foldl_cons]
      exact ih _ (fun p hp => hj p (by simp [hp]))
        (inv_acquire hc hInv (hj r (by simp))) u
  intro reqs hj u
  refine main reqs [] hj ?_ u
  intro v
  simp [windowCount]

/-- At capacity, the slot time lies strictly in the future and is exactly
the instant at which the window has a free slot again. -/
theorem slotTime_full {ceiling : ℕ} (hc : 0 < ceiling) {calls : List ℚ}
    {tReq : ℚ} (hInv : ∀ u, windowCount calls u ≤ ceiling)
    (hfull : ¬ (recentCalls calls (curTime calls tReq)).length < ceiling) :
    curTime calls tReq < slotTime ceiling calls tReq
    ∧ windowCount calls (slotTime ceiling calls tReq) < ceiling := by
  set t := curTime calls tReq with ht
  have hslot : slotTime ceiling calls tReq
      = listMin (recentCalls calls t) t + 60 := by
    rw [slotTime, if_neg hfull]
  have hrecb : ∀ x ∈ recentCalls calls t, x ≤ t := fun x hx =>
    le_curTime_of_mem (List.mem_of_mem_filter hx)
  have hne : recentCalls calls t ≠ [] := by
    intro h0
    rw [h0] at hfull
    simp only [List.length_nil] at hfull
    omega
  have hmem := listMin_mem hne hrecb
  have hmt : t - 60 < listMin (recentCalls calls t) t := by
    have h := List.of_mem_filter hmem
    simpa using h
  constructor
  · rw [hslot]
    linarith
  · have hin : inWindow (slotTime ceiling calls tReq + 0)
        (slotTime ceiling calls tReq + 0) = true := by
      simp only [inWindow, Bool.and_eq_true, decide_eq_true_eq]
      constructor
      · linarith
      · linarith
    have h := windowCount_lt_of_inWindow hc hInv le_rfl hin
    rwa [add_zero] at h

/-- C2: for any ceiling, along every sequential acquisition run no rolling
60-second window ever holds more than `ceiling` admitted calls; at
capacity, `acquire` blocks — the admission instant is strictly later than
the current time, and is exactly when the oldest windowed call has aged
out (the window then being strictly below the ceiling) — rather than
failing or admitting; and the quota-limited Tushare provider's configured
ceiling is `Config.tushare_rate_limit_per_minute = 80` in every loaded
configuration. -/
theorem c2_rate_limiter_window (ceiling : ℕ) (hc : 0 < ceiling) :
    (∀ reqs : List (ℚ × ℚ), (∀ p ∈ reqs, 0 ≤ p.2) →
      ∀ u : ℚ, windowCount (runAcquires ceiling reqs) u ≤ ceiling)
    ∧ (∀ (calls : List ℚ) (tReq : ℚ),
        (∀ u, windowCount calls u ≤ ceiling) →
        ¬ (recentCalls calls (curTime calls tReq)).length < ceiling →
        curTime calls tReq < slotTime ceiling calls tReq
        ∧ windowCount calls (slotTime ceiling calls tReq) < ceiling)
    ∧ (∀ (env : Env) (c : Config), load_from_env env = some c →
        c.tushare_rate_limit_per_minute = 80) := by
  refine ⟨runAcquires_inv ceiling hc,
    fun calls tReq hInv hfull => slotTime_full hc hInv hfull, ?_⟩
  intro env c h
  exact (load_from_env_char env c h).2.2.2.1

/-- Witness for C2 at the Tushare ceiling 80 and a concrete two-request
run. -/
theorem c2_rate_limiter_window_witness :
    windowCount (runAcquires 80 [(0, 0), (1, 0)]) 1 ≤ 80
    ∧ configFromEmptyEnv.tushare_rate_limit_per_minute = 80 := by
  constructor
  · refine (c2_rate_limiter_window 80 (by norm_num)).1 [(0, 0), (1, 0)] ?_ 1
    intro p hp
    rcases List.mem_cons.mp hp with rfl | hp
    · exact le_refl 0
    rcases List.mem_cons.mp hp with rfl | hp
    · exact le_refl 0
    · exact absurd hp (List.not_mem_nil p)
  · exact (c2_rate_limiter_window 80 (by norm_num)).2.2 envEmpty configFromEmptyEnv
      load_from_env_envEmpty

/-! ### C5/C9: the configuration singleton and the watchlist -/

/-- `envStock` loads successfully, to the defaults plus the parsed
watchlist. -/
theorem load_from_env_envStock :
    load_from_env envStock = some configFromStockEnv := by decide

/-- C5 counterexample: an instance constructed from the empty environment
is mutated by `refresh_stock_list` when the environment's `STOCK_LIST`
changes to `123456` — a configuration value changes in response to an
environment change with no `reset_instance`/`get_instance`
reconstruction. -/
theorem c5_counterexample :
    load_from_env envEmpty = some configFromEmptyEnv
    ∧ refresh_stock_list (some "123456") none configFromEmptyEnv ≠ configFromEmptyEnv
    ∧ (refresh_stock_list (some "123456") none configFromEmptyEnv).stock_list
        = ["123456"] := by
  exact ⟨load_from_env_envEmpty, by decide, by decide⟩

/-- C5 (amended): the first `get_instance` constructs the singleton from
the environment; every later call returns that same instance unchanged,
whatever the environment now holds; `reset_instance` clears the singleton
and a following `get_instance` reconstructs from the new environment; and
apart from reconstruction the only mutation the class offers is
`refresh_stock_list`, which replaces exactly the `stock_list` field from
the current `.env`/OS `STOCK_LIST` value. -/
theorem c5_singleton_amended :
    (∀ (env : Env) (c : Config), load_from_env env = some c →
      get_instance env none = some (c, some c))
    ∧ (∀ (env2 : Env) (c : Config), get_instance env2 (some c) = some (c, some c))
    ∧ (∀ inst : Option Config, reset_instance inst = none)
    ∧ (∀ (env2 : Env) (c c2 : Config), load_from_env env2 = some c2 →
        get_instance env2 (reset_instance (some c)) = some (c2, some c2))
    ∧ (∀ (fileVal osVal : Option String) (c : Config),
        refresh_stock_list fileVal osVal c
          = { c with stock_list := (refresh_stock_list fileVal osVal c).stock_list }) := by
  refine ⟨?_, fun env2 c => rfl, fun _ => rfl, ?_, fun fv ov c => rfl⟩
  · intro env c h
    simp [get_instance, h]
  · intro env2 c c2 h
    simp [get_instance, reset_instance, h]

/-- Witness for C5: construction, identity of later reads under a changed
environment, and reconstruction after a reset. -/
theorem c5_singleton_amended_witness :
    get_instance envEmpty none = some (configFromEmptyEnv, some configFromEmptyEnv)
    ∧ get_instance (fun _ => some "changed") (some configFromEmptyEnv)
        = some (configFromEmptyEnv, some configFromEmptyEnv)
    ∧ get_instance envEmpty (reset_instance (some configFromEmptyEnv))
        = some (configFromEmptyEnv, some configFromEmptyEnv) := by
  exact ⟨c5_singleton_amended.1 envEmpty _ load_from_env_envEmpty,
    c5_singleton_amended.2.1 _ _,
    c5_singleton_amended.2.2.2.1 envEmpty configFromEmptyEnv _ load_from_env_envEmpty⟩

/-- C9: every operation that sets `Config.stock_list` leaves it non-empty —
`_load_from_env` keeps the parsed `STOCK_LIST` when non-empty and falls
back to `['600519', '000001', '300750']`, `refresh_stock_list` falls back
to `['000001']` when its parse is empty — and every parsed entry is a
non-empty stripped piece of the comma-split input. -/
theorem c9_stock_list_nonempty :
    (∀ (env : Env) (c : Config), load_from_env env = some c →
      c.stock_list ≠ []
      ∧ (¬ (parseCommaList (getenvD env "STOCK_LIST" "")).isEmpty = true →
          c.stock_list = parseCommaList (getenvD env "STOCK_LIST" ""))
      ∧ ((parseCommaList (getenvD env "STOCK_LIST" "")).isEmpty = true →
          c.stock_list = ["600519", "000001", "300750"]))
    ∧ (∀ (fileVal osVal : Option String) (c : Config),
        (refresh_stock_list fileVal osVal c).stock_list ≠ []
        ∧ ((parseCommaList (if (pyStripS (fileVal.getD "")).isEmpty
              then osVal.getD "" else pyStripS (fileVal.getD ""))).isEmpty = true →
            (refresh_stock_list fileVal osVal c).stock_list = ["000001"])
        ∧ (¬ (parseCommaList (if (pyStripS (fileVal.getD "")).isEmpty
              then osVal.getD "" else pyStripS (fileVal.getD ""))).isEmpty = true →
            (refresh_stock_list fileVal osVal c).stock_list
              = parseCommaList (if (pyStripS (fileVal.getD "")).isEmpty
                  then osVal.getD "" else pyStripS (fileVal.getD ""))))
    ∧ (∀ (s : String) (e : String), e ∈ parseCommaList s →
        e ≠ "" ∧ ∃ x ∈ pySplitChar ',' s.data, e = pyStripS ⟨x⟩) := by
  refine ⟨?_, ?_, ?_⟩
  · intro env c h
    have hsl := (load_from_env_char env c h).2.2.2.2
    by_cases he : (parseCommaList (getenvD env "STOCK_LIST" "")).isEmpty = true
    · rw [he, if_pos rfl] at hsl
      exact ⟨by rw [hsl]; simp, fun hne => absurd he hne, fun _ => hsl⟩
    · have he2 : (parseCommaList (getenvD env "STOCK_LIST" "")).isEmpty = false := by
        simpa using he
      rw [he2] at hsl
      simp only [Bool.false_eq_true, if_false] at hsl
      refine ⟨?_, fun _ => hsl, fun habs => absurd habs he⟩
      rw [hsl]
      cases hp : parseCommaList (getenvD env "STOCK_LIST" "") with
      | nil => rw [hp] at he2; simp at he2
      | cons a l => exact List.cons_ne_nil a l
  · intro fv ov c
    show (let s1 := pyStripS (fv.getD "")
          let s := if s1.isEmpty then ov.getD "" else s1
          let l := parseCommaList s
          ({ c with stock_list := if l.isEmpty then ["000001"] else l } : Config)).stock_list ≠ []
        ∧ _ ∧ _
    by_cases he : (parseCommaList (if (pyStripS (fv.getD "")).isEmpty
        then ov.getD "" else pyStripS (fv.getD ""))).isEmpty = true
    · refine ⟨?_, fun _ => ?_, fun hne => absurd he hne⟩
      · simp only [refresh_stock_list, he, if_true]
        simp
      · simp only [refresh_stock_list, he, if_true]
    · have he2 := he
      simp only [Bool.not_eq_true] at he2
      refine ⟨?_, fun habs => absurd habs he, fun _ => ?_⟩ <;>
        simp only [refresh_stock_list, he2, Bool.false_eq_true, if_false]
      · cases hp : parseCommaList (if (pyStripS (fv.getD "")).isEmpty
            then ov.getD "" else pyStripS (fv.getD "")) with
        | nil => rw [hp] at he2; simp at he2
        | cons a l => exact List.cons_ne_nil a l
  · intro s e he
    rw [parseCommaList] at he
    obtain ⟨hmem, hpred⟩ := List.mem_filter.mp he
    obtain ⟨x, hx, hxe⟩ := List.mem_map.mp hmem
    refine ⟨?_, x, hx, hxe.symm⟩
    intro habs
    rw [habs] at hpred
    simp only [Bool.not_eq_true'] at hpred
    exact absurd hpred (by decide)

/-- Witness for C9 at a concrete environment, a blank-`.env` refresh, and a
concrete parsed entry. -/
theorem c9_stock_list_nonempty_witness :
    configFromStockEnv.stock_list ≠ []
    ∧ (refresh_stock_list (some " ") none configFromEmptyEnv).stock_list = ["000001"]
    ∧ ("600519" ≠ "" ∧ ∃ x ∈ pySplitChar ',' "600519, 000001".data,
        "600519" = pyStripS ⟨x⟩) := by
  refine ⟨(c9_stock_list_nonempty.1 envStock configFromStockEnv
      load_from_env_envStock).1, ?_, ?_⟩
  · exact ((c9_stock_list_nonempty.2.1 (some " ") none configFromEmptyEnv).2.1)
      (by decide)
  · exact c9_stock_list_nonempty.2.2 "600519, 000001" "600519" (by decide)

/-! ### C6: fast failure of the unconfigured / mis-tokened reader -/

/-- C6 counterexample: a fully configured reader whose `table_token` is
`a/b/c` — not of the `app_token/table_id` form — does not return the empty
list: the two-name unpacking of `split('/')` raises `ValueError`.  (No
request is issued before the exception.) -/
theorem c6_counterexample :
    (read_stock_list Char.isDigit oracleDead 0 5 "股票代码" readerBadToken).1
      ≠ PyResult.ok []
    ∧ read_stock_list Char.isDigit oracleDead 0 5 "股票代码" readerBadToken
        = (.exn, readerBadToken, []) := by
  exact ⟨by decide, by decide⟩

/-- C6 (amended): a reader missing a required credential (`is_configured()`
false) returns the empty list from `read_stock_list` and
`get_table_records` immediately, with no token request, no table-records
request and no retries; so does a configured reader whose `table_token`
contains no `/`; a configured reader whose `table_token` contains `/` but
splits into a number of parts other than two raises `ValueError` from the
two-name unpacking — still without issuing any request — instead of
returning. -/
theorem c6_fast_fail_amended (dig : Char → Bool) (oracle : FeishuOracle)
    (now : ℚ) (fuel : ℕ)
    (fname : String) (fnames : Option (List String)) (r : FeishuReader) :
    (is_configured r = false →
      read_stock_list dig oracle now fuel fname r = (.ok [], r, [])
      ∧ get_table_records oracle now fuel fnames r = (.ok [], r, []))
    ∧ (is_configured r = true →
        (r.table_token.getD "").data.contains '/' = false →
        read_stock_list dig oracle now fuel fname r = (.ok [], r, [])
        ∧ get_table_records oracle now fuel fnames r = (.ok [], r, []))
    ∧ (is_configured r = true →
        (r.table_token.getD "").data.contains '/' = true →
        (pySplitChar '/' (r.table_token.getD "").data).length ≠ 2 →
        read_stock_list dig oracle now fuel fname r = (.exn, r, [])
        ∧ get_table_records oracle now fuel fnames r = (.exn, r, [])) := by
  refine ⟨?_, ?_, ?_⟩
  · intro h
    constructor <;> simp [read_stock_list, get_table_records, h]
  · intro h1 h2
    have h2m : ¬ '/' ∈ (r.table_token.getD "").data := by simpa using h2
    constructor <;> simp [read_stock_list, get_table_records, h1, h2m]
  · intro h1 h2 h3
    have h2m : '/' ∈ (r.table_token.getD "").data := by simpa using h2
    constructor <;> simp [read_stock_list, get_table_records, h1, h2m, h3]

/-- Witness for C6: the reader with no `app_id`. -/
theorem c6_fast_fail_amended_witness :
    is_configured readerUnconfigured = false
    ∧ read_stock_list Char.isDigit oracleDead 0 3 "code" readerUnconfigured
        = (.ok [], readerUnconfigured, []) := by
  refine ⟨by decide, ?_⟩
  exact ((c6_fast_fail_amended Char.isDigit oracleDead 0 3 "code" none
    readerUnconfigured).1 (by decide)).1

/-! ### C7: the tenant-access-token cache -/

/-- C7: while a truthy token is cached with a truthy expiry and the clock
is strictly before it, `_get_tenant_access_token` returns the cached token
with no request and no state change; otherwise it issues exactly one token
request and either returns `None` with unchanged state (exception or
non-zero reply code) or caches the received token with expiry `now + 5400`
and returns it; and a cached non-empty token with non-zero expiry strictly
after `now` is exactly a valid cache. -/
theorem c7_token_cache (net : NetResult TokenResp) (now : ℚ) (r : FeishuReader) :
    (cacheValid now r = true →
      get_tenant_access_token net now r = (r.access_token, r, []))
    ∧ (cacheValid now r = false →
        (net = .exn → get_tenant_access_token net now r = (none, r, [.token]))
        ∧ (∀ d : TokenResp, net = .resp d → d.code ≠ 0 →
            get_tenant_access_token net now r = (none, r, [.token]))
        ∧ (∀ d : TokenResp, net = .resp d → d.code = 0 →
            get_tenant_access_token net now r
              = (d.tenant_access_token,
                 { r with access_token := d.tenant_access_token,
                          token_expires_at := some (now + 5400) }, [.token])))
    ∧ (∀ (t : String) (e : ℚ), r.access_token = some t → ¬ t = "" →
        r.token_expires_at = some e → ¬ e = 0 → now < e →
        cacheValid now r = true) := by
  refine ⟨?_, ?_, ?_⟩
  · intro h
    simp [get_tenant_access_token, h]
  · intro h
    refine ⟨?_, ?_, ?_⟩
    · rintro rfl
      simp [get_tenant_access_token, h]
    · rintro d rfl hd
      simp [get_tenant_access_token, h, hd]
    · rintro d rfl hd
      simp [get_tenant_access_token, h, hd]
  · intro t e h1 h2 h3 h4 h5
    rw [cacheValid, h1, h3]
    simp only [pyTruthyS, pyTruthyQ, Bool.and_eq_true, Bool.not_eq_true',
      decide_eq_true_eq]
    refine ⟨⟨?_, h4⟩, h5⟩
    cases hb : t.isEmpty
    · rfl
    · exact absurd ((String.isEmpty_iff t).mp hb) h2

/-- Witness for C7: a cache hit on a concrete cached reader at time 50,
and a cache miss on a fresh reader against a failing vendor. -/
theorem c7_token_cache_witness :
    get_tenant_access_token (.exn) 50 readerCached
      = (readerCached.access_token, readerCached, [])
    ∧ get_tenant_access_token (.exn) 0 readerUnconfigured
        = (none, readerUnconfigured, [HttpReq.token]) := by
  refine ⟨(c7_token_cache (.exn) 50 readerCached).1 (by decide), ?_⟩
  exact ((c7_token_cache (.exn) 0 readerUnconfigured).2.1 (by decide)).1 rfl

/-! ### C8: the extracted stock codes -/

/-- Characterization of a surviving record: the resolved field value is
truthy, is a string (directly or as the head of a list), and its cleaned
form passes the 6-digit test — the code is that cleaned form.  Holds for
every digit predicate, so at Python's `str.isdigit` in particular. -/
theorem extractCode_char {dig : Char → Bool} {fname : String}
    {fields : List (String × FieldVal)}
    {code : String} (h : extractCode dig fname fields = some code) :
    ∃ v s, recordCodeField fields fname = some v ∧ fieldTruthy v = true
      ∧ (v = .str s ∨ ∃ l, v = .list l ∧ l.head? = some (.str s))
      ∧ code = cleanCode s ∧ validCode dig (cleanCode s) = true := by
  rw [extractCode] at h
  cases hrc : recordCodeField fields fname with
  | none => rw [hrc] at h; cases h
  | some v =>
    rw [hrc] at h
    dsimp only at h
    by_cases ht : fieldTruthy v = true
    · rw [if_pos ht] at h
      cases v with
      | str s =>
        dsimp only at h
        by_cases hv : validCode dig (cleanCode s) = true
        · rw [if_pos hv] at h
          injection h with h2
          exact ⟨.str s, s, rfl, ht, Or.inl rfl, h2.symm, hv⟩
        · rw [if_neg hv] at h; cases h
      | list l =>
        dsimp only at h
        cases hl : l.head? with
        | none => rw [hl] at h; cases h
        | some fv =>
          rw [hl] at h
          cases fv with
          | str s =>
            dsimp only at h
            by_cases hv : validCode dig (cleanCode s) = true
            · rw [if_pos hv] at h
              injection h with h2
              exact ⟨.list l, s, rfl, ht, Or.inr ⟨l, rfl, hl⟩, h2.symm, hv⟩
            · rw [if_neg hv] at h; cases h
          | list l2 => cases h
          | other t2 => cases h
      | other t => cases h
    · rw [if_neg ht] at h; cases h

/-- A surviving code passes the acceptance test. -/
theorem extractCode_valid {dig : Char → Bool} {fname : String}
    {fields : List (String × FieldVal)}
    {code : String} (h : extractCode dig fname fields = some code) :
    validCode dig code = true := by
  obtain ⟨v, s, -, -, -, hcode, hval⟩ := extractCode_char h
  rw [hcode]
  exact hval

/-- A valid code is 6 characters, each passing the digit predicate. -/
theorem validCode_shape {dig : Char → Bool} {code : String}
    (h : validCode dig code = true) :
    code.length = 6 ∧ code.data.all dig = true := by
  rw [validCode] at h
  simp only [Bool.and_eq_true, beq_iff_eq] at h
  exact ⟨h.1.2, h.2⟩

/-- Every code `_extract_stock_codes` keeps is 6 characters passing the
digit predicate. -/
theorem extract_codes_valid (dig : Char → Bool) (items : List BitableRecord)
    (fname code : String)
    (hc : code ∈ extract_stock_codes dig items fname) :
    code.length = 6 ∧ code.data.all dig = true := by
  rw [extract_stock_codes] at hc
  obtain ⟨r, hr, he⟩ := List.mem_filterMap.mp hc
  exact validCode_shape (extractCode_valid he)

/-- Every code collected by the pagination loop is 6 characters passing the
digit predicate. -/
theorem readLoop_codes (dig : Char → Bool) (oracle : FeishuOracle) (now : ℚ)
    (fname : String) :
    ∀ (fuel : ℕ) (r : FeishuReader) (hm : Bool) (pt : Option String)
      (code : String),
      code ∈ (readLoop dig oracle now fname fuel r hm pt).1 →
      code.length = 6 ∧ code.data.all dig = true := by
  intro fuel
  induction fuel with
  | zero => intro r hm pt code hc; simp [readLoop] at hc
  | succ n ih =>
    intro r hm pt code hc
    rw [readLoop] at hc
    by_cases hcond : (hm && pyTruthyS pt) = true
    · rw [if_pos hcond] at hc
      rcases hres : list_table_records oracle now r pt with ⟨o, r1, tr⟩
      rw [hres] at hc
      cases o with
      | none => simp at hc
      | some d =>
        dsimp only at hc
        rcases hloop : readLoop dig oracle now fname n r1 d.data.has_more
            d.data.page_token with ⟨more, r2, tr2⟩
        rw [hloop] at hc
        dsimp only at hc
        rcases List.mem_append.mp hc with hc1 | hc2
        · exact extract_codes_valid dig d.data.items fname code hc1
        · have := ih r1 d.data.has_more d.data.page_token code
          rw [hloop] at this
          exact this hc2
    · rw [if_neg hcond] at hc
      simp at hc

/-- C8 (amended): for every digit predicate `dig` modelling the
per-character test of `str.isdigit` — in particular at Python's actual
`isdigit` predicate — every string `read_stock_list` returns (built by
`_extract_stock_codes`) is exactly 6 characters long and every character
passes `dig`; a record survives exactly when its resolved field value is
truthy, is a string (directly or as the head of a list), and its cleaned
form — `strip()`, every `sz` and `sh` removed, truncated at the first `.`
— passes the 6-character all-`dig` test, the kept code being that cleaned
form; all other records contribute nothing.  (The original claim's
"consists only of decimal digits" is refuted by `c8_counterexample`:
`isdigit` also accepts non-decimal Unicode digits.) -/
theorem c8_code_invariant_amended (dig : Char → Bool) :
    (∀ (items : List BitableRecord) (fname code : String),
      code ∈ extract_stock_codes dig items fname →
      code.length = 6 ∧ code.data.all dig = true)
    ∧ (∀ (fname : String) (fields : List (String × FieldVal)) (code : String),
        extractCode dig fname fields = some code →
        ∃ v s, recordCodeField fields fname = some v ∧ fieldTruthy v = true
          ∧ (v = .str s ∨ ∃ l, v = .list l ∧ l.head? = some (.str s))
          ∧ code = cleanCode s ∧ validCode dig (cleanCode s) = true)
    ∧ (∀ (oracle : FeishuOracle) (now : ℚ) (fuel : ℕ) (fname : String)
        (r : FeishuReader) (l : List String),
        (read_stock_list dig oracle now fuel fname r).1 = .ok l →
        ∀ code ∈ l, code.length = 6 ∧ code.data.all dig = true) := by
  refine ⟨extract_codes_valid dig,
    fun fname fields code h => extractCode_char h, ?_⟩
  intro oracle now fuel fname r l hres code hcode
  rw [read_stock_list] at hres
  dsimp only at hres
  by_cases hcfg : (!is_configured r) = true
  · rw [if_pos hcfg] at hres
    injection hres with hl
    rw [← hl] at hcode
    cases hcode
  · rw [if_neg hcfg] at hres
    by_cases hsl : ('/' ∈ (r.table_token.getD "").data)
    · have hsl2 : (r.table_token.getD "").data.contains '/' = true := by
        simpa using hsl
      rw [hsl2] at hres
      simp only [if_true] at hres
      by_cases h2 : ((pySplitChar '/' (r.table_token.getD "").data).length == 2) = true
      · rw [if_pos h2] at hres
        rcases hlr : list_table_records oracle now r none with ⟨o, r1, tr⟩
        rw [hlr] at hres
        cases o with
        | none =>
          injection hres with hl
          rw [← hl] at hcode
          cases hcode
        | some d =>
          dsimp only at hres
          rcases hloop : readLoop dig oracle now fname fuel r1 d.data.has_more
              d.data.page_token with ⟨more, r2, tr2⟩
          rw [hloop] at hres
          dsimp only at hres
          injection hres with hl
          rw [← hl] at hcode
          rcases List.mem_append.mp hcode with hc1 | hc2
          · exact extract_codes_valid dig d.data.items fname code hc1
          · have := readLoop_codes dig oracle now fname fuel r1 d.data.has_more
              d.data.page_token code
            rw [hloop] at this
            exact this hc2
      · rw [if_neg h2] at hres
        cases hres
    · have hsl2 : (r.table_token.getD "").data.contains '/' = false := by
        simpa using hsl
      rw [hsl2] at hres
      simp only [Bool.false_eq_true, if_false] at hres
      injection hres with hl
      rw [← hl] at hcode
      cases hcode

/-- C8 counterexample to the original "only decimal digits" claim: at a
digit predicate agreeing with Python's `str.isdigit` on every character it
accepts (`'²'.isdigit()` is `True`), the record `²²²²²²` — six superscript
twos, none a decimal digit — survives cleaning and is returned by
`_extract_stock_codes` and by a full `read_stock_list` run. -/
theorem c8_counterexample :
    pyDigitSup '²' = true
    ∧ "²²²²²²".data.all Char.isDigit = false
    ∧ extract_stock_codes pyDigitSup [supRecord] "股票代码" = ["²²²²²²"]
    ∧ read_stock_list pyDigitSup oracleSup 0 1 "股票代码" readerCached
        = (.ok ["²²²²²²"], readerCached, [HttpReq.records none]) := by
  exact ⟨by decide, by decide, by decide, by decide⟩

/-- Witness for C8 on concrete records: the prefixed, suffixed code
` sz600519.SZ ` survives as `600519`; the non-string record is dropped. -/
theorem c8_code_invariant_amended_witness :
    extract_stock_codes Char.isDigit sampleRecords "股票代码" = ["600519"]
    ∧ "600519".length = 6 ∧ "600519".data.all Char.isDigit = true := by
  refine ⟨by decide, ?_⟩
  exact (c8_code_invariant_amended Char.isDigit).1 sampleRecords "股票代码"
    "600519" (by decide)

/-! ### C10: the URL parser — basic search lemmas -/

/-- A list with `isEmpty = false` is not nil. -/
theorem ne_nil_of_isEmpty_false {l : List Char} (h : l.isEmpty = false) :
    l ≠ [] := by
  cases l with
  | nil => simp [List.isEmpty] at h
  | cons a t => simp

/-- A pattern leads every extension of itself. -/
theorem leadsWith_append (pat rest : List Char) :
    leadsWith pat (pat ++ rest) = true := by
  induction pat with
  | nil => rfl
  | cons a as ih => simpa [leadsWith] using ih

/-- `leadsWith` is the prefix relation. -/
theorem leadsWith_iff (pat cs : List Char) :
    leadsWith pat cs = true ↔ ∃ t, cs = pat ++ t := by
  induction pat generalizing cs with
  | nil => simp [leadsWith]
  | cons a as ih =>
    cases cs with
    | nil => simp [leadsWith]
    | cons b bs =>
      rw [leadsWith]
      simp only [Bool.and_eq_true, beq_iff_eq]
      rw [ih bs]
      constructor
      · rintro ⟨rfl, t, rfl⟩
        exact ⟨t, rfl⟩
      · rintro ⟨t, ht⟩
        injection ht with h1 h2
        exact ⟨h1.symm, t, h2⟩

/-- Every pattern character occurs in a led text. -/
theorem leadsWith_mem {pat cs : List Char} (h : leadsWith pat cs = true)
    {c : Char} (hc : c ∈ pat) : c ∈ cs := by
  obtain ⟨t, rfl⟩ := (leadsWith_iff pat cs).mp h
  exact List.mem_append_left t hc

/-- A pattern holding a character the text lacks does not lead it. -/
theorem leadsWith_false_of_not_mem {pat cs : List Char} {c : Char}
    (hc : c ∈ pat) (hcs : c ∉ cs) : leadsWith pat cs = false := by
  cases h : leadsWith pat cs with
  | false => rfl
  | true => exact absurd (leadsWith_mem h hc) hcs

/-- No match of the first pattern starts at a non-`/` character. -/
theorem matchAt1_cons_ne {c : Char} {l : List Char} (h : ¬ c = '/') :
    matchAt1 (c :: l) = none := by
  rw [matchAt1]
  have hb : ('/' == c) = false := by
    simpa using fun he => h he.symm
  simp [baseLit, leadsWith, hb]

/-- No match of the second pattern starts at a non-`/` character. -/
theorem matchAt2_cons_ne {c : Char} {l : List Char} (h : ¬ c = '/') :
    matchAt2 (c :: l) = none := by
  rw [matchAt2]
  have hb : ('/' == c) = false := by
    simpa using fun he => h he.symm
  simp [baseLit, leadsWith, hb]

/-- The run before a `/` is taken whole. -/
theorem takeNS_app {u : List Char} (r : List Char) (hu : '/' ∉ u) :
    takeNS (u ++ '/' :: r) = u := by
  induction u with
  | nil => simp [takeNS]
  | cons c cu ih =>
    have hc : ¬ c = '/' := fun he => hu (by simp [he])
    rw [List.cons_append, takeNS, List.takeWhile_cons_of_pos (by simpa using hc)]
    rw [takeNS] at ih
    rw [ih (fun hm => hu (List.mem_cons_of_mem c hm))]

/-- The rest after the run starts at the `/`. -/
theorem dropNS_app {u : List Char} (r : List Char) (hu : '/' ∉ u) :
    dropNS (u ++ '/' :: r) = '/' :: r := by
  induction u with
  | nil => simp [dropNS]
  | cons c cu ih =>
    have hc : ¬ c = '/' := fun he => hu (by simp [he])
    rw [List.cons_append, dropNS, List.dropWhile_cons_of_pos (by simpa using hc)]
    rw [dropNS] at ih
    exact ih (fun hm => hu (List.mem_cons_of_mem c hm))

/-- A slash-free text is one whole run. -/
theorem takeNS_all {u : List Char} (hu : '/' ∉ u) : takeNS u = u := by
  refine List.takeWhile_eq_self_iff.mpr ?_
  intro x hx
  have hne : x ≠ '/' := fun he => hu (he ▸ hx)
  simp [hne]

/-- Nothing follows the run of a slash-free text. -/
theorem dropNS_all {u : List Char} (hu : '/' ∉ u) : dropNS u = [] := by
  have h := List.takeWhile_append_dropWhile (fun c => !(c == '/')) (l := u)
  rw [show List.takeWhile (fun c => !(c == '/')) u = takeNS u from rfl] at h
  rw [takeNS_all hu] at h
  have h3 := congrArg (List.drop u.length) h
  rw [List.drop_left, List.drop_length] at h3
  exact h3

/-- The run itself is slash-free. -/
theorem takeNS_not_mem (l : List Char) : '/' ∉ takeNS l := by
  intro hm
  have := List.mem_takeWhile_imp hm
  simp at this

/-- What follows the run is empty or starts with `/`. -/
theorem dropNS_shape (l : List Char) :
    dropNS l = [] ∨ ∃ r, dropNS l = '/' :: r := by
  induction l with
  | nil => exact Or.inl rfl
  | cons c cl ih =>
    by_cases hc : c = '/'
    · right
      subst hc
      exact ⟨cl, by rw [dropNS, List.dropWhile_cons_of_neg (by simp)]⟩
    · rw [dropNS, List.dropWhile_cons_of_pos (by simpa using hc)]
      exact ih

/-- A suffix of an append is a suffix of the right part or a suffix of the
left part glued to the whole right part. -/
theorem suffix_append_cases {s a b : List Char} (h : s <:+ a ++ b) :
    s <:+ b ∨ ∃ a2, a2 <:+ a ∧ s = a2 ++ b := by
  obtain ⟨t, ht⟩ := h
  rcases List.append_eq_append_iff.mp ht with ⟨a2, ha, hs⟩ | ⟨c2, _, hb⟩
  · exact Or.inr ⟨a2, ⟨t, ha.symm⟩, hs⟩
  · exact Or.inl ⟨c2, hb.symm⟩

/-- Scanning past a stretch with no match start. -/
theorem search1_append (p cs : List Char)
    (h : ∀ s, s <:+ p → s ≠ [] → matchAt1 (s ++ cs) = none) :
    search1 (p ++ cs) = search1 cs := by
  induction p with
  | nil => rfl
  | cons c p ih =>
    have hm : matchAt1 (c :: (p ++ cs)) = none :=
      h (c :: p) List.suffix_rfl (by simp)
    rw [List.cons_append, search1, hm]
    exact ih (fun s hs hne => h s (hs.trans (List.suffix_cons c p)) hne)

/-- Scanning past a stretch with no match start, second pattern. -/
theorem search2_append (p cs : List Char)
    (h : ∀ s, s <:+ p → s ≠ [] → matchAt2 (s ++ cs) = none) :
    search2 (p ++ cs) = search2 cs := by
  induction p with
  | nil => rfl
  | cons c p ih =>
    have hm : matchAt2 (c :: (p ++ cs)) = none :=
      h (c :: p) List.suffix_rfl (by simp)
    rw [List.cons_append, search2, hm]
    exact ih (fun s hs hne => h s (hs.trans (List.suffix_cons c p)) hne)

/-- A text none of whose suffixes starts a match searches to nothing. -/
theorem search1_none_of_all (cs : List Char)
    (h : ∀ s, s <:+ cs → matchAt1 s = none) : search1 cs = none := by
  induction cs with
  | nil => rfl
  | cons c cs ih =>
    rw [search1, h (c :: cs) List.suffix_rfl]
    exact ih (fun s hs => h s (hs.trans (List.suffix_cons c cs)))

/-- A text none of whose suffixes starts a second-pattern match searches to
nothing. -/
theorem search2_none_of_all (cs : List Char)
    (h : ∀ s, s <:+ cs → matchAt2 s = none) : search2 cs = none := by
  induction cs with
  | nil => rfl
  | cons c cs ih =>
    rw [search2, h (c :: cs) List.suffix_rfl]
    exact ih (fun s hs => h s (hs.trans (List.suffix_cons c cs)))

/-! ### C10: soundness and canonical matches -/

/-- A first-pattern match at a position decomposes the text there. -/
theorem matchAt1_sound {cs g1 g2 : List Char}
    (h : matchAt1 cs = some (g1, g2)) :
    ∃ t, cs = baseLit ++ (g1 ++ (tildeLit ++ (g2 ++ t)))
      ∧ g1 ≠ [] ∧ '/' ∉ g1 ∧ g2 ≠ [] ∧ '/' ∉ g2 := by
  rw [matchAt1] at h
  by_cases hl : leadsWith baseLit cs = true
  · rw [if_pos hl] at h
    obtain ⟨u, rfl⟩ := (leadsWith_iff baseLit cs).mp hl
    rw [List.drop_left' (by rfl : baseLit.length = 6)] at h
    rw [matchTail] at h
    by_cases hg1 : (takeNS u).isEmpty = true
    · rw [if_pos hg1] at h; cases h
    · rw [if_neg hg1] at h
      by_cases ht : leadsWith tildeLit (dropNS u) = true
      · rw [if_pos ht] at h
        dsimp only at h
        obtain ⟨w, hw⟩ := (leadsWith_iff tildeLit (dropNS u)).mp ht
        rw [hw, List.drop_left' (by rfl : tildeLit.length = 3)] at h
        by_cases hg2 : (takeNS w).isEmpty = true
        · rw [if_pos hg2] at h; cases h
        · rw [if_neg hg2] at h
          injection h with hpair
          cases hpair
          refine ⟨dropNS w, ?_, ne_nil_of_isEmpty_false (by simpa using hg1),
            takeNS_not_mem u, ne_nil_of_isEmpty_false (by simpa using hg2),
            takeNS_not_mem w⟩
          have hu : takeNS u ++ dropNS u = u :=
            List.takeWhile_append_dropWhile (fun c => !(c == '/')) (l := u)
          have hwid : takeNS w ++ dropNS w = w :=
            List.takeWhile_append_dropWhile (fun c => !(c == '/')) (l := w)
          have hkey : u = takeNS u ++ (tildeLit ++ (takeNS w ++ dropNS w)) := by
            conv_lhs => rw [← hu, hw, ← hwid]
          exact congrArg (fun x => baseLit ++ x) hkey
      · rw [if_neg ht] at h; cases h
  · rw [if_neg hl] at h; cases h

/-- A second-pattern match at a position decomposes the text there. -/
theorem matchAt2_sound {cs g1 : List Char} (h : matchAt2 cs = some g1) :
    ∃ t, cs = baseLit ++ (g1 ++ t)
      ∧ g1 ≠ [] ∧ '/' ∉ g1 ∧ (t = [] ∨ t = ['/']) := by
  rw [matchAt2] at h
  by_cases hl : leadsWith baseLit cs = true
  · rw [if_pos hl] at h
    obtain ⟨u, rfl⟩ := (leadsWith_iff baseLit cs).mp hl
    rw [List.drop_left' (by rfl : baseLit.length = 6)] at h
    dsimp only at h
    by_cases hg1 : (takeNS u).isEmpty = true
    · rw [if_pos hg1] at h; cases h
    · rw [if_neg hg1] at h
      by_cases hr : ((dropNS u).isEmpty || (dropNS u == ['/'])) = true
      · rw [if_pos hr] at h
        injection h with h2
        subst h2
        refine ⟨dropNS u, ?_, ne_nil_of_isEmpty_false (by simpa using hg1),
          takeNS_not_mem u, ?_⟩
        · have hu : takeNS u ++ dropNS u = u :=
            List.takeWhile_append_dropWhile (fun c => !(c == '/')) (l := u)
          exact congrArg (fun x => baseLit ++ x) hu.symm
        · have hr2 : (dropNS u).isEmpty = true ∨ dropNS u = ['/'] := by
            simpa using hr
          rcases hr2 with h3 | h3
          · left
            cases hdu : dropNS u with
            | nil => rfl
            | cons a t => rw [hdu] at h3; simp at h3
          · right
            exact h3
      · rw [if_neg hr] at h; cases h
  · rw [if_neg hl] at h; cases h

/-- A non-nil list has `isEmpty = false`. -/
theorem isEmpty_false_of_ne_nil {l : List Char} (h : l ≠ []) :
    l.isEmpty = false := by
  cases l with
  | nil => exact absurd rfl h
  | cons a t => rfl

/-- The leftmost first-pattern match decomposes the text. -/
theorem search1_sound {cs g1 g2 : List Char}
    (h : search1 cs = some (g1, g2)) :
    ∃ pre t, cs = pre ++ (baseLit ++ (g1 ++ (tildeLit ++ (g2 ++ t))))
      ∧ g1 ≠ [] ∧ '/' ∉ g1 ∧ g2 ≠ [] ∧ '/' ∉ g2 := by
  induction cs with
  | nil => rw [search1] at h; cases h
  | cons c cs ih =>
    rw [search1] at h
    cases hm : matchAt1 (c :: cs) with
    | some r =>
      rw [hm] at h
      dsimp only at h
      injection h with h2
      subst h2
      obtain ⟨t, hd, h1, h2, h3, h4⟩ := matchAt1_sound hm
      exact ⟨[], t, by rw [List.nil_append, hd], h1, h2, h3, h4⟩
    | none =>
      rw [hm] at h
      dsimp only at h
      obtain ⟨pre, t, hd, h1, h2, h3, h4⟩ := ih h
      exact ⟨c :: pre, t, by rw [List.cons_append, hd], h1, h2, h3, h4⟩

/-- The leftmost second-pattern match decomposes the text. -/
theorem search2_sound {cs g1 : List Char} (h : search2 cs = some g1) :
    ∃ pre t, cs = pre ++ (baseLit ++ (g1 ++ t))
      ∧ g1 ≠ [] ∧ '/' ∉ g1 ∧ (t = [] ∨ t = ['/']) := by
  induction cs with
  | nil => rw [search2] at h; cases h
  | cons c cs ih =>
    rw [search2] at h
    cases hm : matchAt2 (c :: cs) with
    | some r =>
      rw [hm] at h
      dsimp only at h
      injection h with h2
      subst h2
      obtain ⟨t, hd, h1, h2, h3⟩ := matchAt2_sound hm
      exact ⟨[], t, by rw [List.nil_append, hd], h1, h2, h3⟩
    | none =>
      rw [hm] at h
      dsimp only at h
      obtain ⟨pre, t, hd, h1, h2, h3⟩ := ih h
      exact ⟨c :: pre, t, by rw [List.cons_append, hd], h1, h2, h3⟩

/-- The first pattern matches the well-formed tail exactly as expected. -/
theorem matchAt1_canonical {app tbl : List Char} (ha : app ≠ []) (hda : '/' ∉ app)
    (hb : tbl ≠ []) (hdb : '/' ∉ tbl) :
    matchAt1 (baseLit ++ (app ++ (tildeLit ++ tbl))) = some (app, tbl) := by
  rw [matchAt1, if_pos (leadsWith_append baseLit _)]
  rw [List.drop_left' (by rfl : baseLit.length = 6)]
  rw [matchTail]
  dsimp only
  have hshape : app ++ (tildeLit ++ tbl) = app ++ '/' :: ('~' :: '/' :: tbl) := rfl
  rw [hshape, takeNS_app _ hda, dropNS_app _ hda]
  rw [if_neg (by rw [isEmpty_false_of_ne_nil ha]; exact Bool.false_ne_true)]
  rw [if_pos (show leadsWith tildeLit ('/' :: ('~' :: '/' :: tbl)) = true from
    leadsWith_append tildeLit tbl)]
  dsimp only [List.drop]
  rw [takeNS_all hdb]
  rw [if_neg (by rw [isEmpty_false_of_ne_nil hb]; exact Bool.false_ne_true)]

/-- The second pattern matches the well-formed tail exactly as expected. -/
theorem matchAt2_canonical {app : List Char} (ha : app ≠ []) (hda : '/' ∉ app) :
    matchAt2 (baseLit ++ app) = some app := by
  rw [matchAt2, if_pos (leadsWith_append baseLit _)]
  dsimp only
  rw [List.drop_left' (by rfl : baseLit.length = 6)]
  rw [takeNS_all hda, dropNS_all hda]
  rw [if_neg (by rw [isEmpty_false_of_ne_nil ha]; exact Bool.false_ne_true)]
  rw [if_pos (by rfl)]

/-- The five-character pattern `base/` leads a slash-free segment followed
by `/` exactly when the segment is `base`. -/
theorem leadsWith_base_iff {hst : List Char} (hh : '/' ∉ hst) (rest : List Char) :
    leadsWith ['b', 'a', 's', 'e', '/'] (hst ++ '/' :: rest) = true
      ↔ hst = ['b', 'a', 's', 'e'] := by
  constructor
  · intro hl
    match hst, hh with
    | [], hh =>
      simp only [List.nil_append, leadsWith, Bool.and_eq_true, beq_iff_eq] at hl
      exact absurd hl.1 (by decide)
    | [c1], hh =>
      simp only [List.cons_append, List.nil_append, leadsWith, Bool.and_eq_true,
        beq_iff_eq] at hl
      exact absurd hl.2.1 (by decide)
    | [c1, c2], hh =>
      simp only [List.cons_append, List.nil_append, leadsWith, Bool.and_eq_true,
        beq_iff_eq] at hl
      exact absurd hl.2.2.1 (by decide)
    | [c1, c2, c3], hh =>
      simp only [List.cons_append, List.nil_append, leadsWith, Bool.and_eq_true,
        beq_iff_eq] at hl
      exact absurd hl.2.2.2.1 (by decide)
    | [c1, c2, c3, c4], hh =>
      simp only [List.cons_append, List.nil_append, leadsWith, Bool.and_eq_true,
        beq_iff_eq, and_true] at hl
      obtain ⟨e1, e2, e3, e4⟩ := hl
      rw [← e1, ← e2, ← e3, ← e4]
    | c1 :: c2 :: c3 :: c4 :: c5 :: h5, hh =>
      simp only [List.cons_append, leadsWith, Bool.and_eq_true, beq_iff_eq] at hl
      obtain ⟨-, -, -, -, e5, -⟩ := hl
      exact absurd (by rw [← e5]; simp : ('/' : Char) ∈ c1 :: c2 :: c3 :: c4 :: c5 :: h5) hh
  · rintro rfl
    have hshape : ['b', 'a', 's', 'e'] ++ '/' :: rest
        = ['b', 'a', 's', 'e', '/'] ++ rest := rfl
    rw [hshape]
    exact leadsWith_append _ _

/-- The two-character pattern `~/` never leads a slash-free segment other
than `~` when a `/` follows the segment. -/
theorem tilde_not_lead {app : List Char} (ha : '/' ∉ app) (hne : app ≠ ['~'])
    (rest : List Char) :
    leadsWith ['~', '/'] (app ++ '/' :: rest) = false := by
  match app, ha, hne with
  | [], _, _ => rfl
  | [c1], ha, hne =>
    by_cases hc : c1 = '~'
    · exact absurd (by rw [hc]) hne
    · have hb : ('~' == c1) = false := by
        simpa using fun he => hc he.symm
      simp [leadsWith, hb]
  | c1 :: c2 :: l, ha, hne =>
    have hc2 : ¬ c2 = '/' := fun he => ha (by simp [he])
    have hb : ('/' == c2) = false := by
      simpa using fun he => hc2 he.symm
    simp [leadsWith, hb]

/-- The suffixes of `https://`. -/
theorem suffix_https {s : List Char} (h : s <:+ "https://".data) :
    s = [] ∨ s = ['/'] ∨ s = ['/', '/'] ∨ s = [':', '/', '/']
    ∨ s = ['s', ':', '/', '/'] ∨ s = ['p', 's', ':', '/', '/']
    ∨ s = ['t', 'p', 's', ':', '/', '/'] ∨ s = ['t', 't', 'p', 's', ':', '/', '/']
    ∨ s = ['h', 't', 't', 'p', 's', ':', '/', '/'] := by
  have h2 : s <:+ ['h', 't', 't', 'p', 's', ':', '/', '/'] := h
  simp only [List.suffix_cons_iff, List.suffix_nil] at h2
  tauto

/-- The suffixes of `/base/`. -/
theorem suffix_base6 {s : List Char} (h : s <:+ baseLit) :
    s = [] ∨ s = ['/'] ∨ s = ['e', '/'] ∨ s = ['s', 'e', '/']
    ∨ s = ['a', 's', 'e', '/'] ∨ s = ['b', 'a', 's', 'e', '/']
    ∨ s = ['/', 'b', 'a', 's', 'e', '/'] := by
  have h2 : s <:+ ['/', 'b', 'a', 's', 'e', '/'] := h
  simp only [List.suffix_cons_iff, List.suffix_nil] at h2
  tauto

/-- No match at the empty position. -/
theorem matchAt1_nil : matchAt1 [] = none := rfl

/-- No second-pattern match at the empty position. -/
theorem matchAt2_nil : matchAt2 [] = none := rfl

/-- No match starts inside a slash-free segment. -/
theorem matchAt1_in_seg {seg : List Char} (hseg : '/' ∉ seg) (cs : List Char) :
    ∀ s, s <:+ seg → s ≠ [] → matchAt1 (s ++ cs) = none := by
  intro s hs hne
  cases s with
  | nil => exact absurd rfl hne
  | cons c s2 =>
    have hc : c ∈ seg := by
      obtain ⟨t, ht⟩ := hs
      rw [← ht]
      simp
    exact matchAt1_cons_ne (fun he => hseg (he ▸ hc))

/-- No second-pattern match starts inside a slash-free segment. -/
theorem matchAt2_in_seg {seg : List Char} (hseg : '/' ∉ seg) (cs : List Char) :
    ∀ s, s <:+ seg → s ≠ [] → matchAt2 (s ++ cs) = none := by
  intro s hs hne
  cases s with
  | nil => exact absurd rfl hne
  | cons c s2 =>
    have hc : c ∈ seg := by
      obtain ⟨t, ht⟩ := hs
      rw [← ht]
      simp
    exact matchAt2_cons_ne (fun he => hseg (he ▸ hc))

/-- A match found at the first position is the search result. -/
theorem search1_of_match {cs : List Char} {r : List Char × List Char}
    (h : matchAt1 cs = some r) : search1 cs = some r := by
  cases cs with
  | nil => exact Option.noConfusion (matchAt1_nil ▸ h)
  | cons c cs => rw [search1, h]

/-- A second-pattern match found at the first position is the search
result. -/
theorem search2_of_match {cs : List Char} {r : List Char}
    (h : matchAt2 cs = some r) : search2 cs = some r := by
  cases cs with
  | nil => exact Option.noConfusion (matchAt2_nil ▸ h)
  | cons c cs => rw [search2, h]

/-- After `/base/`, a slash-free group with nothing after it never
completes the first pattern. -/
theorem matchAt1_tail2_none {app : List Char} (happ : '/' ∉ app) :
    matchAt1 (baseLit ++ app) = none := by
  rw [matchAt1, if_pos (leadsWith_append baseLit _)]
  rw [List.drop_left' (by rfl : baseLit.length = 6)]
  rw [matchTail]
  dsimp only
  rw [takeNS_all happ, dropNS_all happ]
  by_cases hae : app.isEmpty = true
  · rw [if_pos hae]
  · rw [if_neg hae, if_neg (by exact Bool.false_ne_true)]

/-- Clause-1 prefix: no first-pattern match starts inside
`https://<host>` ahead of the canonical `/base/<app>/~/<tbl>` tail, except
in the excluded `host = base, app = ~` configuration. -/
theorem prefix1_no_match {host app tbl : List Char}
    (hhost : '/' ∉ host) (happ : '/' ∉ app)
    (hex : ¬ (host = ['b', 'a', 's', 'e'] ∧ app = ['~'])) :
    ∀ s, s <:+ ("https://".data ++ host) → s ≠ [] →
      matchAt1 (s ++ (baseLit ++ (app ++ (tildeLit ++ tbl)))) = none := by
  intro s hs hne
  rcases suffix_append_cases hs with hsb | ⟨a2, ha2, rfl⟩
  · exact matchAt1_in_seg hhost _ s hsb hne
  · rcases suffix_https ha2 with rfl | rfl | rfl | rfl | rfl | rfl | rfl | rfl | rfl
    · -- a2 = []
      cases hh : host with
      | nil =>
        subst hh
        exact absurd rfl hne
      | cons c h2 =>
        subst hh
        exact matchAt1_in_seg hhost _ (c :: h2) List.suffix_rfl (by simp)
    · -- a2 = ['/']
      show matchAt1 ('/' :: (host ++ (baseLit ++ (app ++ (tildeLit ++ tbl))))) = none
      by_cases hb : host = ['b', 'a', 's', 'e']
      · have happne : app ≠ ['~'] := fun hae => hex ⟨hb, hae⟩
        subst hb
        have hshape : ('/' :: (['b', 'a', 's', 'e'] ++
              (baseLit ++ (app ++ (tildeLit ++ tbl)))))
            = baseLit ++ (['b', 'a', 's', 'e', '/'] ++ (app ++ (tildeLit ++ tbl))) := rfl
        rw [hshape, matchAt1, if_pos (leadsWith_append baseLit _)]
        rw [List.drop_left' (by rfl : baseLit.length = 6)]
        rw [matchTail]
        dsimp only
        have hshape2 : ['b', 'a', 's', 'e', '/'] ++ (app ++ (tildeLit ++ tbl))
            = ['b', 'a', 's', 'e'] ++ '/' :: (app ++ (tildeLit ++ tbl)) := rfl
        rw [hshape2, takeNS_app _ (by decide), dropNS_app _ (by decide)]
        rw [if_neg (by exact Bool.false_ne_true)]
        have hY : leadsWith tildeLit
            ('/' :: (app ++ (tildeLit ++ tbl))) = false := by
          show leadsWith ['~', '/'] (app ++ (tildeLit ++ tbl)) = false
          exact tilde_not_lead happ happne ('~' :: '/' :: tbl)
        rw [if_neg (by rw [hY]; exact Bool.false_ne_true)]
      · rw [matchAt1]
        have hfalse : leadsWith baseLit
            ('/' :: (host ++ (baseLit ++ (app ++ (tildeLit ++ tbl))))) = false := by
          show leadsWith ['b', 'a', 's', 'e', '/']
            (host ++ (baseLit ++ (app ++ (tildeLit ++ tbl)))) = false
          have hshape3 : host ++ (baseLit ++ (app ++ (tildeLit ++ tbl)))
              = host ++ '/' :: ('b' :: 'a' :: 's' :: 'e' :: '/' ::
                  (app ++ (tildeLit ++ tbl))) := rfl
          rw [hshape3]
          cases hlw : leadsWith ['b', 'a', 's', 'e', '/'] (host ++ '/' ::
              ('b' :: 'a' :: 's' :: 'e' :: '/' :: (app ++ (tildeLit ++ tbl)))) with
          | false => rfl
          | true => exact absurd ((leadsWith_base_iff hhost _).mp hlw) hb
        rw [if_neg (by rw [hfalse]; exact Bool.false_ne_true)]
    · -- a2 = ['/', '/']
      exact rfl
    · exact matchAt1_cons_ne (by decide)
    · exact matchAt1_cons_ne (by decide)
    · exact matchAt1_cons_ne (by decide)
    · exact matchAt1_cons_ne (by decide)
    · exact matchAt1_cons_ne (by decide)
    · exact matchAt1_cons_ne (by decide)

/-- Clause-2 text: the first pattern matches nowhere in
`https://<host>/base/<app>` when host and app are slash-free. -/
theorem full2_no_match1 {host app : List Char}
    (hhost : '/' ∉ host) (happ : '/' ∉ app) :
    ∀ s, s <:+ ("https://".data ++ (host ++ (baseLit ++ app))) →
      matchAt1 s = none := by
  intro s hs
  rcases suffix_append_cases hs with hs1 | ⟨a2, ha2, rfl⟩
  · rcases suffix_append_cases hs1 with hs2 | ⟨h2, hh2, rfl⟩
    · -- s <:+ baseLit ++ app
      rcases suffix_append_cases hs2 with hs3 | ⟨b2, hb2, rfl⟩
      · -- s <:+ app
        cases hse : s with
        | nil => exact matchAt1_nil
        | cons c s2 =>
          subst hse
          have := matchAt1_in_seg happ [] (c :: s2) hs3 (by simp)
          rwa [List.append_nil] at this
      · -- s = b2 ++ app, b2 <:+ baseLit
        rcases suffix_base6 hb2 with rfl | rfl | rfl | rfl | rfl | rfl | rfl
        · -- b2 = []
          cases hap : app with
          | nil => exact matchAt1_nil
          | cons c a2 =>
            subst hap
            have := matchAt1_in_seg happ [] (c :: a2) List.suffix_rfl (by simp)
            rwa [List.append_nil] at this
        · -- b2 = ['/']
          rw [matchAt1]
          have hfalse : leadsWith baseLit (['/'] ++ app) = false := by
            show leadsWith ['b', 'a', 's', 'e', '/'] app = false
            exact leadsWith_false_of_not_mem (by decide) happ
          rw [if_neg (by rw [hfalse]; exact Bool.false_ne_true)]
        · exact matchAt1_cons_ne (by decide)
        · exact matchAt1_cons_ne (by decide)
        · exact matchAt1_cons_ne (by decide)
        · exact matchAt1_cons_ne (by decide)
        · -- b2 = baseLit
          exact matchAt1_tail2_none happ
    · -- s = h2 ++ (baseLit ++ app), h2 <:+ host
      cases hh : h2 with
      | nil =>
        subst hh
        rw [List.nil_append]
        exact matchAt1_tail2_none happ
      | cons c hs2 =>
        subst hh
        exact matchAt1_in_seg hhost _ (c :: hs2) hh2 (by simp)
  · -- s = a2 ++ (host ++ (baseLit ++ app)), a2 <:+ https://
    rcases suffix_https ha2 with rfl | rfl | rfl | rfl | rfl | rfl | rfl | rfl | rfl
    · -- a2 = []
      rw [List.nil_append]
      cases hh : host with
      | nil =>
        subst hh
        rw [List.nil_append]
        exact matchAt1_tail2_none happ
      | cons c h2 =>
        subst hh
        exact matchAt1_in_seg hhost _ (c :: h2) List.suffix_rfl (by simp)
    · -- a2 = ['/']
      show matchAt1 ('/' :: (host ++ (baseLit ++ app))) = none
      by_cases hb : host = ['b', 'a', 's', 'e']
      · subst hb
        have hshape : ('/' :: (['b', 'a', 's', 'e'] ++ (baseLit ++ app)))
            = baseLit ++ (['b', 'a', 's', 'e', '/'] ++ app) := rfl
        rw [hshape, matchAt1, if_pos (leadsWith_append baseLit _)]
        rw [List.drop_left' (by rfl : baseLit.length = 6)]
        rw [matchTail]
        dsimp only
        have hshape2 : ['b', 'a', 's', 'e', '/'] ++ app
            = ['b', 'a', 's', 'e'] ++ '/' :: app := rfl
        rw [hshape2, takeNS_app _ (by decide), dropNS_app _ (by decide)]
        rw [if_neg (by exact Bool.false_ne_true)]
        have hY : leadsWith tildeLit ('/' :: app) = false := by
          show leadsWith ['~', '/'] app = false
          exact leadsWith_false_of_not_mem (by decide) happ
        rw [if_neg (by rw [hY]; exact Bool.false_ne_true)]
      · rw [matchAt1]
        have hfalse : leadsWith baseLit ('/' :: (host ++ (baseLit ++ app))) = false := by
          show leadsWith ['b', 'a', 's', 'e', '/'] (host ++ (baseLit ++ app)) = false
          have hshape3 : host ++ (baseLit ++ app)
              = host ++ '/' :: ('b' :: 'a' :: 's' :: 'e' :: '/' :: app) := rfl
          rw [hshape3]
          cases hlw : leadsWith ['b', 'a', 's', 'e', '/'] (host ++ '/' ::
              ('b' :: 'a' :: 's' :: 'e' :: '/' :: app)) with
          | false => rfl
          | true => exact absurd ((leadsWith_base_iff hhost _).mp hlw) hb
        rw [if_neg (by rw [hfalse]; exact Bool.false_ne_true)]
    · exact rfl
    · exact matchAt1_cons_ne (by decide)
    · exact matchAt1_cons_ne (by decide)
    · exact matchAt1_cons_ne (by decide)
    · exact matchAt1_cons_ne (by decide)
    · exact matchAt1_cons_ne (by decide)
    · exact matchAt1_cons_ne (by decide)

/-- Clause-2 prefix: no second-pattern match starts inside `https://<host>`
ahead of the canonical `/base/<app>` tail. -/
theorem prefix2_no_match {host app : List Char}
    (hhost : '/' ∉ host) ( _happ : '/' ∉ app) (hne : app ≠ []) :
    ∀ s, s <:+ ("https://".data ++ host) → s ≠ [] →
      matchAt2 (s ++ (baseLit ++ app)) = none := by
  intro s hs hsne
  rcases suffix_append_cases hs with hsb | ⟨a2, ha2, rfl⟩
  · exact matchAt2_in_seg hhost _ s hsb hsne
  · rcases suffix_https ha2 with rfl | rfl | rfl | rfl | rfl | rfl | rfl | rfl | rfl
    · -- a2 = []
      cases hh : host with
      | nil =>
        subst hh
        exact absurd rfl hsne
      | cons c h2 =>
        subst hh
        exact matchAt2_in_seg hhost _ (c :: h2) List.suffix_rfl (by simp)
    · -- a2 = ['/']
      show matchAt2 ('/' :: (host ++ (baseLit ++ app))) = none
      by_cases hb : host = ['b', 'a', 's', 'e']
      · subst hb
        have hshape : ('/' :: (['b', 'a', 's', 'e'] ++ (baseLit ++ app)))
            = baseLit ++ (['b', 'a', 's', 'e', '/'] ++ app) := rfl
        rw [hshape, matchAt2, if_pos (leadsWith_append baseLit _)]
        dsimp only
        rw [List.drop_left' (by rfl : baseLit.length = 6)]
        have hshape2 : ['b', 'a', 's', 'e', '/'] ++ app
            = ['b', 'a', 's', 'e'] ++ '/' :: app := rfl
        rw [hshape2, takeNS_app _ (by decide), dropNS_app _ (by decide)]
        rw [if_neg (by exact Bool.false_ne_true)]
        have hr : (('/' :: app).isEmpty || ('/' :: app == ['/'])) = false := by
          have hbeq : (('/' :: app) == ['/']) = false := by
            have : ('/' :: app) ≠ ['/'] := by
              intro habs
              injection habs with h1 h2
              exact hne h2
            exact beq_eq_false_iff_ne.mpr this
          simp [List.isEmpty, hbeq]
        rw [if_neg (by rw [hr]; exact Bool.false_ne_true)]
      · rw [matchAt2]
        have hfalse : leadsWith baseLit ('/' :: (host ++ (baseLit ++ app))) = false := by
          show leadsWith ['b', 'a', 's', 'e', '/'] (host ++ (baseLit ++ app)) = false
          have hshape3 : host ++ (baseLit ++ app)
              = host ++ '/' :: ('b' :: 'a' :: 's' :: 'e' :: '/' :: app) := rfl
          rw [hshape3]
          cases hlw : leadsWith ['b', 'a', 's', 'e', '/'] (host ++ '/' ::
              ('b' :: 'a' :: 's' :: 'e' :: '/' :: app)) with
          | false => rfl
          | true => exact absurd ((leadsWith_base_iff hhost _).mp hlw) hb
        rw [if_neg (by rw [hfalse]; exact Bool.false_ne_true)]
    · exact rfl
    · exact matchAt2_cons_ne (by decide)
    · exact matchAt2_cons_ne (by decide)
    · exact matchAt2_cons_ne (by decide)
    · exact matchAt2_cons_ne (by decide)
    · exact matchAt2_cons_ne (by decide)
    · exact matchAt2_cons_ne (by decide)

/-- Stripping the query: the longest `?`-free prefix of `A ++ query` is `A`
when `A` is `?`-free and the query is absent or starts with `?`. -/
theorem takeWhileQ_eq {A q : List Char} (hA : '?' ∉ A)
    (hq : q = [] ∨ ∃ q2, q = '?' :: q2) :
    (A ++ q).takeWhile (fun c => !(c == '?')) = A := by
  induction A with
  | nil =>
    rcases hq with rfl | ⟨q2, rfl⟩
    · rfl
    · rw [List.nil_append, List.takeWhile_cons_of_neg (by simp)]
  | cons c A ih =>
    have hc : ¬ c = '?' := fun he => hA (by simp [he])
    rw [List.cons_append, List.takeWhile_cons_of_pos (by simpa using hc)]
    rw [ih (fun hm => hA (List.mem_cons_of_mem c hm))]

/-- Stripping trailing slashes from a text that ends in a non-slash
segment followed by slashes. -/
theorem rstripSlash_append {p tl sl : List Char} (htl : tl ≠ [])
    (hmem : '/' ∉ tl) (hsl : ∀ c ∈ sl, c = '/') :
    rstripSlash ((p ++ tl) ++ sl) = p ++ tl := by
  rw [rstripSlash, List.reverse_append, List.reverse_append]
  rw [List.dropWhile_append_of_pos (by
    intro a ha
    have := hsl a (by simpa using ha)
    simp [this])]
  cases htr : tl.reverse with
  | nil => exact absurd (by simpa using htr) htl
  | cons c r =>
    have hcm : c ∈ tl := by
      have hmr : c ∈ tl.reverse := by rw [htr]; simp
      simpa using hmr
    have hcne : c ≠ '/' := fun he => hmem (he ▸ hcm)
    have hc : ¬ (c == '/') = true := by simpa using hcne
    rw [List.cons_append, List.dropWhile_cons, if_neg hc]
    rw [← List.cons_append, ← htr, ← List.reverse_append, List.reverse_reverse]

/-- Rebuilding a string from its own characters. -/
theorem str_eta (s : String) : (⟨s.data⟩ : String) = s := by
  cases s
  rfl

/-- Strings with the same characters are equal. -/
theorem str_ext {a b : String} (h : a.data = b.data) : a = b := by
  cases a
  cases b
  exact congrArg String.mk h

/-- C10 counterexample: a URL with extra path segments after the table id
is "another URL" yet parses to a triple, not `None`; and with host `base`
and app token `~` the leftmost regex match shifts, returning
`("base", "~", "base/~")` instead of `("~", "T", "~/T")`. -/
theorem c10_counterexample :
    parse_feishu_bitable_url "https://x/base/A/~/B/C" = some ("A", some "B", "A/B")
    ∧ parse_feishu_bitable_url "https://base/base/~/~/T"
        = some ("base", some "~", "base/~") := by
  exact ⟨by decide, by decide⟩

/-- C10 (amended): for non-empty `app_token`/`table_id` free of `/` and
`?`, and a host free of `/` and `?`, the URL
`https://<host>/base/<app>/~/<tbl>` — with or without trailing slashes and
a trailing query — parses to `(app, tbl, app ++ "/" ++ tbl)`, except in the
single shifted-match configuration host = `base`, app = `~`; the URL
`https://<host>/base/<app>` parses to `(app, none, app)`; and a URL whose
stripped form (query removed, trailing slashes removed) contains no
`/base/<seg>/~/<seg>` decomposition and no terminal `/base/<seg>[/]`
decomposition parses to `None`. -/
theorem c10_url_parse_amended :
    (∀ host app tbl slashes query : String,
      '/' ∉ host.data → '?' ∉ host.data →
      app.data ≠ [] → '/' ∉ app.data → '?' ∉ app.data →
      tbl.data ≠ [] → '/' ∉ tbl.data → '?' ∉ tbl.data →
      (∀ c ∈ slashes.data, c = '/') →
      (query.data = [] ∨ ∃ q2, query.data = '?' :: q2) →
      ¬ (host = "base" ∧ app = "~") →
      parse_feishu_bitable_url
          ("https://" ++ host ++ "/base/" ++ app ++ "/~/" ++ tbl ++ slashes ++ query)
        = some (app, some tbl, app ++ "/" ++ tbl))
    ∧ (∀ host app slashes query : String,
        '/' ∉ host.data → '?' ∉ host.data →
        app.data ≠ [] → '/' ∉ app.data → '?' ∉ app.data →
        (∀ c ∈ slashes.data, c = '/') →
        (query.data = [] ∨ ∃ q2, query.data = '?' :: q2) →
        parse_feishu_bitable_url
            ("https://" ++ host ++ "/base/" ++ app ++ slashes ++ query)
          = some (app, none, app))
    ∧ (∀ url : String,
        (¬ ∃ pre g1 g2 t,
          rstripSlash (url.data.takeWhile (fun c => !(c == '?')))
            = pre ++ (baseLit ++ (g1 ++ (tildeLit ++ (g2 ++ t))))
          ∧ g1 ≠ [] ∧ '/' ∉ g1 ∧ g2 ≠ [] ∧ '/' ∉ g2) →
        (¬ ∃ pre g1 t,
          rstripSlash (url.data.takeWhile (fun c => !(c == '?')))
            = pre ++ (baseLit ++ (g1 ++ t))
          ∧ g1 ≠ [] ∧ '/' ∉ g1 ∧ (t = [] ∨ t = ['/'])) →
        parse_feishu_bitable_url url = none) := by
  refine ⟨?_, ?_, ?_⟩
  · intro host app tbl slashes query hh1 hh2 ha1 ha2 ha3 ht1 ht2 ht3 hsl hq hex
    have hexL : ¬ (host.data = ['b', 'a', 's', 'e'] ∧ app.data = ['~']) := by
      rintro ⟨hb, ha⟩
      exact hex ⟨str_ext hb, str_ext ha⟩
    have hurl : ("https://" ++ host ++ "/base/" ++ app ++ "/~/" ++ tbl
          ++ slashes ++ query).data
        = ((("https://".data ++ host.data)
            ++ (baseLit ++ (app.data ++ (tildeLit ++ tbl.data))))
            ++ slashes.data) ++ query.data := by
      simp [String.data_append, List.append_assoc, baseLit, tildeLit]
    have hW : '?' ∉ (("https://".data ++ host.data)
        ++ (baseLit ++ (app.data ++ (tildeLit ++ tbl.data)))) ++ slashes.data := by
      intro hm
      simp only [List.mem_append] at hm
      rcases hm with ((h | h) | (h | (h | (h | h)))) | h
      · exact absurd h (by decide)
      · exact hh2 h
      · exact absurd h (by decide)
      · exact ha3 h
      · exact absurd h (by decide)
      · exact ht3 h
      · exact absurd (hsl _ h) (by decide)
    have hstrip : ("https://" ++ host ++ "/base/" ++ app ++ "/~/" ++ tbl
          ++ slashes ++ query).data.takeWhile (fun c => !(c == '?'))
        = (("https://".data ++ host.data)
            ++ (baseLit ++ (app.data ++ (tildeLit ++ tbl.data)))) ++ slashes.data := by
      rw [hurl]
      exact takeWhileQ_eq hW hq
    have hsh : ("https://".data ++ host.data)
          ++ (baseLit ++ (app.data ++ (tildeLit ++ tbl.data)))
        = (("https://".data ++ host.data)
            ++ (baseLit ++ (app.data ++ tildeLit))) ++ tbl.data := by
      simp [List.append_assoc]
    have hrstrip : rstripSlash ((("https://".data ++ host.data)
          ++ (baseLit ++ (app.data ++ (tildeLit ++ tbl.data)))) ++ slashes.data)
        = ("https://".data ++ host.data)
            ++ (baseLit ++ (app.data ++ (tildeLit ++ tbl.data))) := by
      rw [hsh]
      exact rstripSlash_append ht1 ht2 hsl
    have hsearch : search1 (("https://".data ++ host.data)
          ++ (baseLit ++ (app.data ++ (tildeLit ++ tbl.data))))
        = some (app.data, tbl.data) := by
      rw [search1_append _ _ (prefix1_no_match hh1 ha2 hexL)]
      exact search1_of_match (matchAt1_canonical ha1 ha2 ht1 ht2)
    simp only [parse_feishu_bitable_url]
    rw [hstrip, hrstrip, hsearch]
    dsimp only
    have hfull : (⟨app.data ++ '/' :: tbl.data⟩ : String) = app ++ "/" ++ tbl := by
      refine str_ext ?_
      simp [String.data_append]
    rw [str_eta app, str_eta tbl, hfull]
  · intro host app slashes query hh1 hh2 ha1 ha2 ha3 hsl hq
    have hurl : ("https://" ++ host ++ "/base/" ++ app ++ slashes ++ query).data
        = ((("https://".data ++ host.data) ++ (baseLit ++ app.data))
            ++ slashes.data) ++ query.data := by
      simp [String.data_append, List.append_assoc, baseLit, tildeLit]
    have hW : '?' ∉ (("https://".data ++ host.data) ++ (baseLit ++ app.data))
        ++ slashes.data := by
      intro hm
      simp only [List.mem_append] at hm
      rcases hm with ((h | h) | (h | h)) | h
      · exact absurd h (by decide)
      · exact hh2 h
      · exact absurd h (by decide)
      · exact ha3 h
      · exact absurd (hsl _ h) (by decide)
    have hstrip : ("https://" ++ host ++ "/base/" ++ app
          ++ slashes ++ query).data.takeWhile (fun c => !(c == '?'))
        = (("https://".data ++ host.data) ++ (baseLit ++ app.data))
            ++ slashes.data := by
      rw [hurl]
      exact takeWhileQ_eq hW hq
    have hsh : ("https://".data ++ host.data) ++ (baseLit ++ app.data)
        = (("https://".data ++ host.data) ++ baseLit) ++ app.data := by
      simp [List.append_assoc]
    have hrstrip : rstripSlash ((("https://".data ++ host.data)
          ++ (baseLit ++ app.data)) ++ slashes.data)
        = ("https://".data ++ host.data) ++ (baseLit ++ app.data) := by
      rw [hsh]
      exact rstripSlash_append ha1 ha2 hsl
    have hassoc : ("https://".data ++ host.data) ++ (baseLit ++ app.data)
        = "https://".data ++ (host.data ++ (baseLit ++ app.data)) := by
      simp [List.append_assoc]
    have hsearch1 : search1 (("https://".data ++ host.data)
          ++ (baseLit ++ app.data)) = none := by
      rw [hassoc]
      exact search1_none_of_all _ (full2_no_match1 hh1 ha2)
    have hsearch2 : search2 (("https://".data ++ host.data)
          ++ (baseLit ++ app.data)) = some app.data := by
      rw [search2_append _ _ (prefix2_no_match hh1 ha2 ha1)]
      exact search2_of_match (matchAt2_canonical ha1 ha2)
    simp only [parse_feishu_bitable_url]
    rw [hstrip, hrstrip, hsearch1]
    dsimp only
    rw [hsearch2]
  · intro url h1 h2
    have hs1 : search1 (rstripSlash
        (url.data.takeWhile (fun c => !(c == '?')))) = none := by
      cases hres : search1 (rstripSlash
          (url.data.takeWhile (fun c => !(c == '?')))) with
      | none => rfl
      | some r =>
        obtain ⟨g1, g2⟩ := r
        obtain ⟨pre, t, hd, a1, a2, a3, a4⟩ := search1_sound hres
        exact absurd ⟨pre, g1, g2, t, hd, a1, a2, a3, a4⟩ h1
    have hs2 : search2 (rstripSlash
        (url.data.takeWhile (fun c => !(c == '?')))) = none := by
      cases hres : search2 (rstripSlash
          (url.data.takeWhile (fun c => !(c == '?')))) with
      | none => rfl
      | some g1 =>
        obtain ⟨pre, t, hd, a1, a2, a3⟩ := search2_sound hres
        exact absurd ⟨pre, g1, t, hd, a1, a2, a3⟩ h2
    simp only [parse_feishu_bitable_url]
    rw [hs1, hs2]

/-- Witness for C10: a concrete well-formed Bitable URL with a trailing
slash and query, and a concrete app-token-only URL. -/
theorem c10_url_parse_amended_witness :
    parse_feishu_bitable_url
        ("https://" ++ "x.feishu.cn" ++ "/base/" ++ "appT" ++ "/~/" ++ "tblT"
          ++ "/" ++ "?view=1")
      = some ("appT", some "tblT", "appT" ++ "/" ++ "tblT")
    ∧ parse_feishu_bitable_url
        ("https://" ++ "x.feishu.cn" ++ "/base/" ++ "appT" ++ "" ++ "")
      = some ("appT", none, "appT") := by
  constructor
  · exact c10_url_parse_amended.1 "x.feishu.cn" "appT" "tblT" "/" "?view=1"
      (by decide) (by decide) (by decide) (by decide) (by decide)
      (by decide) (by decide) (by decide) (by decide)
      (Or.inr ⟨"view=1".data, by decide⟩) (by decide)
  · exact c10_url_parse_amended.2.1 "x.feishu.cn" "appT" "" ""
      (by decide) (by decide) (by decide) (by decide) (by decide)
      (by decide) (Or.inl (by decide))

end DSA
